import Mathlib

/-!
# Verification of the Ceci route-planning core (`services/rota_service.py`)

A shallow embedding of the route-planning service: topology loading,
station-graph construction, live-status overlay, station resolution
(including a model of `difflib.get_close_matches`), the three riding
profiles, the networkx shortest-path searches used by the code
(`dijkstra_path`, `astar_path`), transfer detection and plan arbitration.

Modelling conventions:
* Python floats only ever hold small integer costs here (3, +10, +3, +2),
  so costs are `Nat`.
* The three lazily-cached globals (`_load_data`, `_build_graph`,
  `_fetch_status`) are threaded as explicit parameters: the topology, the
  graph built from it, and the status map (itself a function of the
  optional network response).
* Python exceptions become an explicit error type: the two `ValueError`s
  raised by `plan_route` and the uncaught `networkx.NodeNotFound`
  exception that escapes it.
* Unicode: `_normalize` (NFKD → ASCII-ignore → casefold) is modelled for
  the ASCII plane plus the Latin accented letters appearing in the data;
  characters outside the table are dropped, matching `encode("ASCII",
  "ignore")` for characters with no ASCII-compatible NFKD decomposition.
-/

namespace Ceci

/-- Edge attributes stored by `_build_graph`'s `add_edge` call:
`tempo=TEMPO_BASE, linha=nome_linha, operadora=operadora`. -/
structure EdgeData where
  tempo : Nat
  linha : String
  operadora : String
deriving DecidableEq, Repr

/-- One undirected edge of the networkx graph, with its attribute dict. -/
structure GEdge where
  src : String
  dst : String
  data : EdgeData
deriving DecidableEq, Repr

/-- The networkx `Graph` built by `_build_graph`: node list in insertion
order, undirected edges with attributes (one entry per unordered pair,
later `add_edge` calls overwrite the attributes), and the `baldeacoes`
node attribute (set on stations served by more than one line). -/
structure Graph where
  nodes : List String
  edges : List GEdge
  transfers : List (String × List String)
deriving DecidableEq, Repr

/-- One line of the static topology (`data_linhas.json`):
`{nome, operadora, estacoes}`. -/
structure Linha where
  nome : String
  operadora : String
  estacoes : List String
deriving DecidableEq, Repr

/-- The loaded topology: the `linhas` list of the data file. -/
abbrev Topology := List Linha

/-- `TEMPO_BASE = 3`. -/
def TEMPO_BASE : Nat := 3

/-- NFKD decomposition followed by `encode("ASCII","ignore")`, per
character, modelled for ASCII and the Latin-1 accented letters (whose
NFKD form is the base letter plus a combining mark that the ASCII encode
drops).  Other non-ASCII characters are dropped. -/
def nfkdAscii (c : Char) : List Char :=
  if c.toNat < 128 then [c]
  else if c ∈ ['á', 'à', 'â', 'ã', 'ä', 'Á', 'À', 'Â', 'Ã', 'Ä'] then
    [if c.toNat ≤ 196 ∧ 192 ≤ c.toNat then 'A' else 'a']
  else if c ∈ ['é', 'è', 'ê', 'ë'] then ['e']
  else if c ∈ ['É', 'È', 'Ê', 'Ë'] then ['E']
  else if c ∈ ['í', 'ì', 'î', 'ï'] then ['i']
  else if c ∈ ['Í', 'Ì', 'Î', 'Ï'] then ['I']
  else if c ∈ ['ó', 'ò', 'ô', 'õ', 'ö'] then ['o']
  else if c ∈ ['Ó', 'Ò', 'Ô', 'Õ', 'Ö'] then ['O']
  else if c ∈ ['ú', 'ù', 'û', 'ü'] then ['u']
  else if c ∈ ['Ú', 'Ù', 'Û', 'Ü'] then ['U']
  else if c = 'ç' then ['c']
  else if c = 'Ç' then ['C']
  else if c = 'ñ' then ['n']
  else if c = 'Ñ' then ['N']
  else []

/-- `_normalize`: NFKD, drop non-ASCII, `casefold` (= ASCII lowering on
the ASCII-only intermediate string). -/
def pyNormalize (s : String) : String :=
  String.mk (((s.data.map nfkdAscii).flatten).map Char.toLower)

/-- Python `str.lower()` on the (ASCII-normalized) situation strings. -/
def pyLower (s : String) : String :=
  String.mk (s.data.map Char.toLower)

/-- Python string comparison `a < b`: lexicographic on code points. -/
def charListLt : List Char → List Char → Bool
  | _, [] => false
  | [], _ :: _ => true
  | a :: as, b :: bs =>
    if a.toNat < b.toNat then true
    else if a.toNat = b.toNat then charListLt as bs else false

/-- Python string comparison `a < b`. -/
def pyStrLt (a b : String) : Bool := charListLt a.data b.data

/-- Python `str.strip()`: drop leading and trailing whitespace. -/
def pyStrip (s : String) : String :=
  String.mk
    (((s.data.dropWhile Char.isWhitespace).reverse.dropWhile
      Char.isWhitespace).reverse)

/-- Python substring test `pat in hay`. -/
def containsSub (hay pat : String) : Bool :=
  hay.data.tails.any (fun t => pat.data.isPrefixOf t)

/-- Python `dict` as an association list: `m[k] = v` replaces an existing
key in place (keeping the key's original position) or appends. -/
def dictInsert (m : List (String × String)) (k v : String) :
    List (String × String) :=
  if m.any (fun p => p.1 == k) then
    m.map (fun p => if p.1 == k then (k, v) else p)
  else m ++ [(k, v)]

/-- Python `dict.get(k)` (as an `Option`). -/
def dictGet (m : List (String × String)) (k : String) : Option String :=
  (m.find? (fun p => p.1 == k)).map (fun p => p.2)

/-- Membership of an undirected edge entry at the unordered pair `{a,b}`. -/
def samePair (e : GEdge) (a b : String) : Bool :=
  (e.src == a && e.dst == b) || (e.src == b && e.dst == a)

/-- networkx `add_edge` on the edge set: updating an existing unordered
pair overwrites its attribute dict in place; otherwise the edge is
appended. -/
def insertEdge (edges : List GEdge) (a b : String) (d : EdgeData) :
    List GEdge :=
  if edges.any (fun e => samePair e a b) then
    edges.map (fun e => if samePair e a b then { e with data := d } else e)
  else edges ++ [⟨a, b, d⟩]

/-- networkx node insertion (nodes are added by `add_edge` in order). -/
def addNode (ns : List String) (x : String) : List String :=
  if x ∈ ns then ns else ns ++ [x]

/-- networkx `graph.add_edge(a, b, tempo=…, linha=…, operadora=…)`. -/
def addEdge (g : Graph) (a b : String) (d : EdgeData) : Graph :=
  { g with
    nodes := addNode (addNode g.nodes a) b
    edges := insertEdge g.edges a b d }

/-- The consecutive station pairs of a line:
`zip(estacoes[:-1], estacoes[1:])`. -/
def consecPairs (l : List String) : List (String × String) :=
  l.zip l.tail

/-- Add one line's edges to the graph (inner loop of `_build_graph`). -/
def addLinha (g : Graph) (l : Linha) : Graph :=
  (consecPairs l.estacoes).foldl
    (fun g p => addEdge g p.1 p.2 ⟨TEMPO_BASE, l.nome, l.operadora⟩) g

/-- The edge-building phase of `_build_graph` (before node annotation). -/
def buildGraphEdges (topo : Topology) : Graph :=
  topo.foldl addLinha ⟨[], [], []⟩

/-- The `linhas_encontradas` list of `_build_graph`: names of the lines
whose station list contains the station. -/
def linhasEncontradas (topo : Topology) (estacao : String) : List String :=
  (topo.filter (fun l => estacao ∈ l.estacoes)).map (fun l => l.nome)

/-- `_build_graph`: add the edges of every line, then set the
`baldeacoes` attribute on every node served by more than one line. -/
def buildGraph (topo : Topology) : Graph :=
  let g := buildGraphEdges topo
  { g with
    transfers := g.nodes.filterMap (fun est =>
      let linhas := linhasEncontradas topo est
      if linhas.length > 1 then some (est, linhas) else none) }

/-- networkx `graph.get_edge_data(u, v)` (attribute dict of the
undirected edge, `None` if absent). -/
def getEdgeData (g : Graph) (u v : String) : Option EdgeData :=
  (g.edges.find? (fun e => samePair e u v)).map (fun e => e.data)

/-- Truthiness of `graph.nodes[u].get("baldeacoes")`: the attribute is
only ever set to a list of length ≥ 2, so present means truthy. -/
def transferAt (g : Graph) (u : String) : Bool :=
  (g.transfers.find? (fun p => p.1 == u)).isSome

/-- One item of the decoded live-status feed, as `_fetch_status`'s loop
body sees it: `ok nome situacao` is a record whose two field accesses
and `.strip()` succeed; `bad` is a record on which the body raises
(a non-dict item, or a non-string field such as `"situacao": null`,
whose `.strip()` raises `AttributeError`). -/
inductive FetchItem where
  | ok (nome situacao : String)
  | bad
deriving DecidableEq, Repr

/-- The record loop of `_fetch_status`: each well-formed record inserts
`status_operacao[_normalize(nome)] = situacao.strip()`; the first record
that raises aborts the loop — the exception is silenced and the map
built *so far* is returned. -/
def fetchStatusLoop : List FetchItem → List (String × String) →
    List (String × String)
  | [], acc => acc
  | FetchItem.ok nome situacao :: rest, acc =>
    fetchStatusLoop rest (dictInsert acc (pyNormalize nome) (pyStrip situacao))
  | FetchItem.bad :: _, acc => acc

/-- `_fetch_status`, with the network interaction made explicit: `none`
models the request, the HTTP status check or the JSON decode raising
before any record is processed (silenced, returning the empty map);
`some items` is the decoded record sequence, folded until the first
record that raises. -/
def fetchStatus (resp : Option (List FetchItem)) :
    List (String × String) :=
  match resp with
  | none => []
  | some items => fetchStatusLoop items []

/-- `list_all_stations`: `sorted(set(...))` over every station of every
line; modelled as duplicate-dropping insertion into a sorted list, whose
result is the unique ascending duplicate-free enumeration that Python
returns. -/
def insertSorted (x : String) : List String → List String
  | [] => [x]
  | y :: ys =>
    if pyStrLt x y then x :: y :: ys
    else if x = y then y :: ys
    else y :: insertSorted x ys

/-- `list_all_stations`. -/
def listAllStations (topo : Topology) : List String :=
  ((topo.map (fun l => l.estacoes)).flatten).foldl
    (fun acc e => insertSorted e acc) []

/-- The degradation test of `_calcular_peso`:
`any(p in situacao for p in ("reduzida", "falha", "interrup"))` applied
to the lowered situation string of the edge's line. -/
def situacaoDegradada (status : List (String × String)) (linha : String) :
    Bool :=
  let situacao := pyLower ((dictGet status (pyNormalize linha)).getD "")
  containsSub situacao "reduzida" || containsSub situacao "falha" ||
    containsSub situacao "interrup"

/-- `_calcular_peso(u, v, modo)`: base `tempo` (defaulting to
`TEMPO_BASE` when the edge is absent), +10 when the line's live situation
matches a degradation keyword, +3 in `simples` mode when the *first*
endpoint `u` carries the `baldeacoes` attribute, +2 in `acessivel` mode. -/
def calcularPeso (g : Graph) (status : List (String × String))
    (u v : String) (modo : String) : Nat :=
  let atributos := getEdgeData g u v
  let tempo := (atributos.map (fun d => d.tempo)).getD TEMPO_BASE
  let linha := (atributos.map (fun d => d.linha)).getD ""
  let tempo := if situacaoDegradada status linha then tempo + 10 else tempo
  if modo = "simples" ∧ transferAt g u then tempo + 3
  else if modo = "acessivel" then tempo + 2
  else tempo

/-- `_custo_total`: the profile's edge cost summed over consecutive
stations of the path. -/
def custoTotal (g : Graph) (status : List (String × String))
    (caminho : List String) (modo : String) : Nat :=
  ((consecPairs caminho).map (fun p => calcularPeso g status p.1 p.2 modo)).sum

/-- The `linha` attribute sequence of a path's consecutive edges
(`dados.get("linha", "")` per segment). -/
def pathLines (g : Graph) (caminho : List String) : List String :=
  (consecPairs caminho).map (fun p =>
    ((getEdgeData g p.1 p.2).map (fun d => d.linha)).getD "")

/-- The segment indices at which `_detectar_baldeacoes` records a
transfer: `idx ≥ 1` with the `linha` attribute differing from the
previous segment's. -/
def lineChanges (linhas : List String) : List Nat :=
  (List.range linhas.length).filter (fun idx =>
    decide (1 ≤ idx) && !(linhas.getD idx "" == linhas.getD (idx - 1) ""))

/-- `_detectar_baldeacoes`: one `(caminho[idx], previous line, new line)`
triple per segment index at which the line attribute changes. -/
def detectarBaldeacoes (g : Graph) (caminho : List String) :
    List (String × String × String) :=
  let linhas := pathLines g caminho
  (lineChanges linhas).map (fun idx =>
    (caminho.getD idx "", linhas.getD (idx - 1) "", linhas.getD idx ""))

/-! ## difflib: `SequenceMatcher.ratio` and `get_close_matches`

The station names matched here are far shorter than 200 characters, so
`SequenceMatcher`'s autojunk heuristic never marks any character as junk;
with an empty junk set the two block-extension loops of
`find_longest_match` can never fire (a match extensible on either side
would already have produced a strictly longer run during the scan), so
the model is the junk-free scan alone. -/

/-- Lookup in the `j2len` dict of `find_longest_match`. -/
def lookupNat (m : List (Nat × Nat)) (k : Nat) : Option Nat :=
  (m.find? (fun p => p.1 == k)).map (fun p => p.2)

/-- `SequenceMatcher.find_longest_match(alo, ahi, blo, bhi)` (junk-free):
returns `(i, j, k)`, the longest block `a[i:i+k] == b[j:j+k]` with
`alo ≤ i`, `i+k ≤ ahi`, `blo ≤ j`, `j+k ≤ bhi`, earliest in `a` then in
`b` among maximal blocks.  `b2j[a[i]]` is modelled by filtering the index
range of `b`. -/
def findLongestMatch (a b : List Char) (alo ahi blo bhi : Nat) :
    Nat × Nat × Nat :=
  let final := (List.range' alo (ahi - alo)).foldl
    (fun (st : (Nat × Nat × Nat) × List (Nat × Nat)) i =>
      let j2len := st.2
      let c := a.getD i ' '
      let js := (List.range' blo (bhi - blo)).filter
        (fun j => b.getD j ' ' == c)
      js.foldl (fun (st2 : (Nat × Nat × Nat) × List (Nat × Nat)) j =>
        let k := (if j = 0 then 0 else (lookupNat j2len (j - 1)).getD 0) + 1
        let best := if k > st2.1.2.2 then (i + 1 - k, j + 1 - k, k) else st2.1
        (best, st2.2 ++ [(j, k)])) (st.1, []))
    ((alo, blo, 0), [])
  final.1

/-- Total size of the matching blocks of `get_matching_blocks` on the
region `[alo,ahi) × [blo,bhi)` (the recursive region split; block order
and adjacent merging do not affect the total).  Fuel bounds the recursion
depth, which is at most the region length. -/
def matchingSizeAux (a b : List Char) :
    Nat → Nat → Nat → Nat → Nat → Nat
  | 0, _, _, _, _ => 0
  | fuel + 1, alo, ahi, blo, bhi =>
    let r := findLongestMatch a b alo ahi blo bhi
    if r.2.2 = 0 then 0
    else
      matchingSizeAux a b fuel alo r.1 blo r.2.1 + r.2.2 +
        matchingSizeAux a b fuel (r.1 + r.2.2) ahi (r.2.1 + r.2.2) bhi

/-- `M`, the total number of matched characters used by
`SequenceMatcher.ratio() = 2*M / (len(a)+len(b))`. -/
def matchingSize (a b : List Char) : Nat :=
  matchingSizeAux a b (a.length + 1) 0 a.length 0 b.length

/-- `get_close_matches(word, possibilities, n=1, cutoff=0.8)`: keep the
candidates with `ratio ≥ 0.8` (as exact rationals,
`2*M/(|x|+|word|) ≥ 4/5  ⇔  10*M ≥ 4*(|x|+|word|)`; the float
computation cannot disagree at these magnitudes), then
`heapq.nlargest(1, [(ratio, x), …])`: the largest `(ratio, string)` pair,
ratios compared by cross-multiplication and ties broken towards the
lexicographically larger string. -/
def getCloseMatches1 (word : String) (possibilities : List String) :
    Option String :=
  let tot := fun (x : String) => x.data.length + word.data.length
  let scored := possibilities.filterMap (fun x =>
    let m := matchingSize x.data word.data
    if 10 * m ≥ 4 * tot x then some (m, x) else none)
  (scored.foldl (fun best p =>
    match best with
    | none => some p
    | some b =>
      if p.1 * tot b.2 > b.1 * tot p.2 ∨
          (p.1 * tot b.2 = b.1 * tot p.2 ∧ pyStrLt b.2 p.2) then some p
      else some b) none).map (fun p => p.2)

/-- The `mapa_normalizado` dict of `_resolver_estacao`:
`{ _normalize(est): est for est in estacoes }`. -/
def estacaoMapa (estacoes : List String) : List (String × String) :=
  estacoes.foldl (fun m est => dictInsert m (pyNormalize est) est) []

/-- `_resolver_estacao`: empty input fails; otherwise an exact lookup of
the normalized input in the normalized→canonical station dict, falling
back to `get_close_matches` over the dict's keys. -/
def resolverEstacao (topo : Topology) (nome : String) : Option String :=
  if nome = "" then none
  else
    let estacoes := listAllStations topo
    let normalizado := pyNormalize nome
    let mapa := estacaoMapa estacoes
    match dictGet mapa normalizado with
    | some est => some est
    | none =>
      match getCloseMatches1 normalizado (mapa.map (fun p => p.1)) with
      | some chave => dictGet mapa chave
      | none => none

/-! ## The networkx searches used by `plan_route` -/

/-- The neighbours of `v` in adjacency (= edge insertion) order. -/
def neighbors (g : Graph) (v : String) : List String :=
  g.edges.filterMap (fun e =>
    if e.src == v then some e.dst
    else if e.dst == v then some e.src else none)

/-- Unweighted `nx.shortest_path` hop count (bidirectional BFS returns a
shortest path; only its length is used by the heuristic), `none` when no
path exists (`NetworkXNoPath`). -/
def bfsDistAux (g : Graph) (tgt : String) :
    Nat → List String → List String → Nat → Option Nat
  | 0, _, _, _ => none
  | fuel + 1, frontier, visited, d =>
    if frontier = [] then none
    else if tgt ∈ frontier then some d
    else
      let visited2 := visited ++ frontier
      let next := frontier.foldl (fun acc v =>
        (neighbors g v).foldl (fun acc2 u =>
          if u ∈ visited2 ∨ u ∈ acc2 then acc2 else acc2 ++ [u]) acc) []
      bfsDistAux g tgt fuel next visited2 (d + 1)

/-- Hop distance between two nodes, `none` when unreachable. -/
def bfsDist (g : Graph) (src tgt : String) : Option Nat :=
  bfsDistAux g tgt (g.nodes.length + 1) [src] [] 0

/-- The heuristic closure passed to `nx.astar_path`:
`TEMPO_BASE * (len(nx.shortest_path(graph, u, destino)) - 1)`; `none`
models the `NetworkXNoPath` the inner `shortest_path` raises for a
disconnected pair (caught by `plan_route`'s `except`). -/
def heuristicFor (g : Graph) (destino : String) (u : String) : Option Nat :=
  (bfsDist g u destino).map (fun hops => TEMPO_BASE * hops)

/-- How `plan_route` can fail: the two `ValueError`s it raises itself
(unresolvable station; no route in any profile) and the
`networkx.NodeNotFound` exception that escapes it uncaught when a
resolved station is not a node of the graph. -/
inductive RouteErr where
  | stationNotFound
  | noRouteFound
  | nodeNotFound
deriving DecidableEq, Repr

/-- A pending entry of the Dijkstra heap: `(dist, counter, node)` plus
the `paths[node]` value the networkx implementation keeps alongside (the
counter is implicit: the queue list is kept in insertion order). -/
structure QEntry where
  dist : Nat
  node : String
  path : List String
deriving DecidableEq, Repr

/-- `heappop`: the earliest entry of minimal key (heap order
`(key, counter)`: the counter tie-break is the queue's insertion order,
which the queue list preserves), and the rest of the queue in insertion
order. -/
def popMinBy {α : Type} (key : α → Nat) : List α → Option (α × List α)
  | [] => none
  | e :: es =>
    match popMinBy key es with
    | none => some (e, [])
    | some (m, rest) =>
      if key m < key e then some (m, e :: rest) else some (e, es)

/-- Total neighbour-list length over the nodes outside `fin`; an upper
bound on the pushes the search loops can still perform, used to provision
their fuel. -/
def degSum (g : Graph) (fin : List String) : Nat :=
  ((g.nodes.filter (fun v => decide (v ∉ fin))).map
    (fun v => (neighbors g v).length)).sum

/-- The loop of networkx `_dijkstra` (single source, with target):
pop the minimal entry; a node popped again after being finalized is
skipped; popping the target returns `paths[target]`; otherwise the node
is finalized and each non-finalized neighbour is pushed.  The `seen`
pruning of the original only avoids redundant pushes: the first pop per
node — which alone determines `dist`/`paths` — is unchanged, because
pushes for a node strictly improve its distance and the heap breaks ties
towards earlier pushes. -/
def dijkstraLoop (g : Graph) (w : String → String → Nat) (target : String) :
    Nat → List QEntry → List String → Option (List String)
  | 0, _, _ => none
  | fuel + 1, queue, fin =>
    match popMinBy (fun e => e.dist) queue with
    | none => none
    | some (e, rest) =>
      if e.node ∈ fin then dijkstraLoop g w target fuel rest fin
      else if e.node = target then some e.path
      else
        let pushes := (neighbors g e.node).filterMap (fun u =>
          if u ∈ (e.node :: fin) then none
          else some (⟨e.dist + w e.node u, u, e.path ++ [u]⟩ : QEntry))
        dijkstraLoop g w target fuel (rest ++ pushes) (e.node :: fin)

/-- `nx.dijkstra_path(graph, source, target, weight)` via
`multi_source_dijkstra`: a missing source raises `NodeNotFound`
(`.error`); `target in sources` short-circuits to `[target]`; `.ok none`
is the `NetworkXNoPath` raised when the search exhausts the queue. -/
def dijkstra (g : Graph) (w : String → String → Nat)
    (source target : String) : Except RouteErr (Option (List String)) :=
  if source ∈ g.nodes then
    if target = source then .ok (some [source])
    else .ok (dijkstraLoop g w target (degSum g [] + 2)
      [⟨0, source, [source]⟩] [])
  else .error RouteErr.nodeNotFound

/-- A pending entry of the A* heap: `(priority, counter, node, dist)`
plus the path reconstructed from the parent pointers (carried directly;
with the strictly-improving push discipline below the two coincide). -/
structure AEntry where
  prio : Nat
  node : String
  dist : Nat
  path : List String
deriving DecidableEq, Repr

/-- Lookup in the `enqueued` dict of `astar_path`. -/
def enqLookup (m : List (String × Nat × Nat)) (k : String) :
    Option (Nat × Nat) :=
  (m.find? (fun p => p.1 == k)).map (fun p => p.2)

/-- Assignment to the `enqueued` dict of `astar_path`. -/
def enqInsert (m : List (String × Nat × Nat)) (k : String)
    (v : Nat × Nat) : List (String × Nat × Nat) :=
  if m.any (fun p => p.1 == k) then
    m.map (fun p => if p.1 == k then (k, v) else p)
  else m ++ [(k, v)]

/-- The loop of `nx.astar_path`: pop the minimal entry; return its path
at the target; skip an already-explored node (a re-popped node always
carries a strictly larger `dist` than its recorded `enqueued` cost, so
the original's re-expansion branch never fires); otherwise explore it,
pushing each neighbour whose tentative cost strictly improves on its
`enqueued` cost, evaluating the heuristic (which may raise, aborting the
whole search — `none`) only on first acquaintance.  The neighbour pass
is this fold over the adjacency list. -/
def astarExpand (w : String → String → Nat)
    (h : String → Option Nat) (e : AEntry) (ns : List String)
    (enqueued : List (String × Nat × Nat)) :
    Option (List AEntry × List (String × Nat × Nat)) :=
  ns.foldl (fun acc u =>
    match acc with
    | none => none
    | some st =>
      let ncost := e.dist + w e.node u
      match enqLookup st.2 u with
      | some qh =>
        if qh.1 ≤ ncost then some st
        else some (st.1 ++ [(⟨ncost + qh.2, u, ncost,
            e.path ++ [u]⟩ : AEntry)],
          enqInsert st.2 u (ncost, qh.2))
      | none =>
        match h u with
        | none => none
        | some hu =>
          some (st.1 ++ [(⟨ncost + hu, u, ncost,
              e.path ++ [u]⟩ : AEntry)],
            enqInsert st.2 u (ncost, hu)))
    (some ([], enqueued))

/-- The loop of `nx.astar_path` (see `astarExpand` for the neighbour
pass). -/
def astarLoop (g : Graph) (w : String → String → Nat)
    (h : String → Option Nat) (target : String) :
    Nat → List AEntry → List String → List (String × Nat × Nat) →
    Option (List String)
  | 0, _, _, _ => none
  | fuel + 1, queue, explored, enqueued =>
    match popMinBy (fun e => e.prio) queue with
    | none => none
    | some (e, rest) =>
      if e.node = target then some e.path
      else if e.node ∈ explored then
        astarLoop g w h target fuel rest explored enqueued
      else
        match astarExpand w h e (neighbors g e.node) enqueued with
        | none => none
        | some st =>
          astarLoop g w h target fuel (rest ++ st.1) (e.node :: explored) st.2

/-- `nx.astar_path(graph, source, target, heuristic, weight)`: raises
`NodeNotFound` when either endpoint is missing; `.ok none` is the caught
`NetworkXNoPath` (queue exhausted, or the heuristic's inner
`shortest_path` raising on a disconnected pair). -/
def astar (g : Graph) (w : String → String → Nat) (h : String → Option Nat)
    (source target : String) : Except RouteErr (Option (List String)) :=
  if source ∈ g.nodes ∧ target ∈ g.nodes then
    .ok (astarLoop g w h target (degSum g [] + 2)
      [⟨0, source, 0, [source]⟩] [] [])
  else .error RouteErr.nodeNotFound

/-! ## `plan_route` -/

/-- The `RoutePlan` dataclass. -/
structure RoutePlan where
  origem : String
  destino : String
  modo : String
  caminho : List String
  custo_estimado : Nat
  baldeacoes : List (String × String × String)
deriving DecidableEq, Repr

/-- One iteration of `plan_route`'s profile loop: run the profile's
search (`dijkstra_path` for `simples`, `astar_path` otherwise); a caught
`NetworkXNoPath` skips the profile (`.ok none`); success builds the
profile's `RoutePlan`. -/
def tryModo (g : Graph) (status : List (String × String))
    (o d modo : String) : Except RouteErr (Option RoutePlan) :=
  let w := fun u v => calcularPeso g status u v modo
  let result :=
    if modo = "simples" then dijkstra g w o d
    else astar g w (heuristicFor g d) o d
  match result with
  | .error e => .error e
  | .ok none => .ok none
  | .ok (some caminho) =>
    .ok (some ⟨o, d, modo, caminho, custoTotal g status caminho modo,
      detectarBaldeacoes g caminho⟩)

/-- The `melhores` dict of `plan_route` as the list of per-profile plans
in profile order `("rapido", "simples", "acessivel")`, skipping the
profiles whose search found no path. -/
def modePlans (g : Graph) (status : List (String × String)) (o d : String) :
    Except RouteErr (List RoutePlan) :=
  match tryModo g status o d "rapido" with
  | .error e => .error e
  | .ok r1 =>
    match tryModo g status o d "simples" with
    | .error e => .error e
    | .ok r2 =>
      match tryModo g status o d "acessivel" with
      | .error e => .error e
      | .ok r3 => .ok ([r1, r2, r3].filterMap id)

/-- Python `min(values, key=custo_estimado)`: the first element of
minimal cost (later elements replace the best only on strict
improvement). -/
def pyMin (p : RoutePlan) (ps : List RoutePlan) : RoutePlan :=
  ps.foldl (fun best q =>
    if q.custo_estimado < best.custo_estimado then q else best) p

/-- `plan_route(origem, destino)`: resolve both endpoints (failure is the
first `ValueError`), run the three profiles, fail with the second
`ValueError` when no profile found a path, otherwise return the
lowest-cost plan. -/
def plan_route (topo : Topology) (status : List (String × String))
    (origem destino : String) : Except RouteErr RoutePlan :=
  match resolverEstacao topo origem, resolverEstacao topo destino with
  | some o, some d =>
    let g := buildGraph topo
    (match modePlans g status o d with
     | .error e => .error e
     | .ok [] => .error RouteErr.noRouteFound
     | .ok (p :: ps) => .ok (pyMin p ps))
  | _, _ => .error RouteErr.stationNotFound

/-! ## Derived notions used to state the claims -/

/-- The path is a walk of the station graph: every pair of consecutive
stations is joined by an edge. -/
def isWalk (g : Graph) : List String → Bool
  | [] => true
  | [_] => true
  | a :: b :: rest => (getEdgeData g a b).isSome && isWalk g (b :: rest)

/-- The unordered pair `{x,y}` equals the unordered pair `{a,b}`. -/
def pairEq (x y a b : String) : Bool :=
  (x == a && y == b) || (x == b && y == a)

/-- The line's ordered station sequence contains `{a,b}` as a
consecutive pair (in either direction). -/
def linhaTemPar (l : Linha) (a b : String) : Bool :=
  (consecPairs l.estacoes).any (fun p => pairEq p.1 p.2 a b)

/-- The lines of the topology containing `{a,b}` as a consecutive pair,
in topology order. -/
def linesWithPair (topo : Topology) (a b : String) : List Linha :=
  topo.filter (fun l => linhaTemPar l a b)

/-- Two stations are connected in the graph: some walk joins them. -/
def Connected (g : Graph) (o d : String) : Prop :=
  ∃ p, isWalk g p = true ∧ p.head? = some o ∧ p.getLast? = some d

/-- The path invariant of a search-queue entry: a walk from the source
ending at the entry's node. -/
def PathOk (g : Graph) (src : String) (path : List String) (node : String) :
    Prop :=
  isWalk g path = true ∧ path.head? = some src ∧ path.getLast? = some node

/-- The acceptance condition of `get_close_matches` at cutoff 0.8:
`SequenceMatcher.ratio = 2*M/(|x|+|word|) ≥ 4/5`, as exact integers. -/
def ratioOK (word x : String) : Prop :=
  10 * matchingSize x.data word.data ≥ 4 * (x.data.length + word.data.length)

/-- Similarity comparison between two candidates against the same word:
`ratio x ≤ ratio y`, by cross-multiplication. -/
def ratioLE (word x y : String) : Prop :=
  matchingSize x.data word.data * (y.data.length + word.data.length) ≤
    matchingSize y.data word.data * (x.data.length + word.data.length)

instance (word x : String) : Decidable (ratioOK word x) :=
  inferInstanceAs (Decidable (_ ≤ _))

instance (word x y : String) : Decidable (ratioLE word x y) :=
  inferInstanceAs (Decidable (_ ≤ _))

/-- Well-formedness of a station graph, enjoyed by every graph
`_build_graph` produces: nodes are distinct, every edge's endpoints are
nodes, and every edge's base travel time is `TEMPO_BASE`. -/
def GraphWf (g : Graph) : Prop :=
  g.nodes.Nodup ∧
    (∀ e ∈ g.edges, e.src ∈ g.nodes ∧ e.dst ∈ g.nodes) ∧
    (∀ e ∈ g.edges, e.data.tempo = TEMPO_BASE)

/-! ## Concrete topologies used by the end-to-end scenarios -/

/-- The spec's end-to-end scenario topology:
line `L1 = [A, B, C]`, line `L2 = [C, D, E]`. -/
def topoScenario : Topology :=
  [⟨"L1", "Op", ["A", "B", "C"]⟩, ⟨"L2", "Op", ["C", "D", "E"]⟩]

/-- A topology with a one-station line: `X` appears in the topology but
has no incident edge, so it is not a node of the built graph. -/
def topoIsolated : Topology :=
  [⟨"L1", "Op", ["A", "B"]⟩, ⟨"LX", "Op", ["X"]⟩]

/-- A topology whose stations `AA` and `Aa` collide under normalization
(`casefold` maps both to `aa`); the normalized→canonical dict keeps the
later station of the sorted order, `Aa`, which has no incident edge. -/
def topoCollide : Topology :=
  [⟨"L1", "Op", ["AA", "B"]⟩, ⟨"L2", "Op", ["Aa"]⟩]

/-- A topology in which the same consecutive station pair `(A, B)`
occurs in two distinct lines. -/
def topoDupPair : Topology :=
  [⟨"L1", "Op1", ["A", "B"]⟩, ⟨"L2", "Op2", ["A", "B"]⟩]

/-! ## Lemmas about graph construction -/

/-- `samePair` ignores the attribute payload. -/
theorem samePair_set_data (e : GEdge) (d : EdgeData) (a b : String) :
    samePair { e with data := d } a b = samePair e a b := rfl

/-- Unfolding `pairEq` to propositional form. -/
theorem pairEq_iff (x y a b : String) :
    pairEq x y a b = true ↔ (x = a ∧ y = b) ∨ (x = b ∧ y = a) := by
  simp [pairEq]

/-- Matching the same unordered pair under two spellings. -/
theorem samePair_congr (e : GEdge) {x y a b : String}
    (h : pairEq x y a b = true) : samePair e a b = samePair e x y := by
  rcases (pairEq_iff x y a b).mp h with ⟨h1, h2⟩ | ⟨h1, h2⟩ <;> subst h1 <;>
    subst h2
  · rfl
  · simp [samePair, Bool.or_comm]

/-- An edge matching both `{a,b}` and `{x,y}` forces the two unordered
pairs to coincide. -/
theorem pairEq_of_samePair {e : GEdge} {x y a b : String}
    (hab : samePair e a b = true) (hxy : samePair e x y = true) :
    pairEq x y a b = true := by
  simp only [samePair, Bool.or_eq_true, Bool.and_eq_true, beq_iff_eq]
    at hab hxy
  rw [pairEq_iff]
  rcases hab with ⟨h1, h2⟩ | ⟨h1, h2⟩ <;> rcases hxy with ⟨h3, h4⟩ | ⟨h3, h4⟩ <;>
    subst h1 <;> subst h2 <;> simp [← h3, ← h4]

/-- `find?` on a cons whose head satisfies the predicate. -/
theorem find?_cons_pos {α : Type} (p : α → Bool) (a : α) (l : List α)
    (h : p a = true) : (a :: l).find? p = some a := by
  rw [List.find?_cons_of_pos _ h]

/-- `find?` on a cons whose head fails the predicate. -/
theorem find?_cons_neg {α : Type} (p : α → Bool) (a : α) (l : List α)
    (h : p a = false) : (a :: l).find? p = l.find? p := by
  rw [List.find?_cons_of_neg _ (by simp [h])]

/-- Updating an existing pair's attributes: the lookup at that pair sees
the new data. -/
theorem find?_insert_hit (x y a b : String) (d : EdgeData)
    (hp : pairEq x y a b = true) :
    ∀ es : List GEdge, es.any (fun e => samePair e x y) = true →
      ((es.map (fun e =>
          if samePair e x y then { e with data := d } else e)).find?
        (fun e => samePair e a b)).map (fun e => e.data) = some d := by
  intro es
  induction es with
  | nil => intro h; simp at h
  | cons e es ih =>
    intro h
    by_cases hxy : samePair e x y = true
    · rw [List.map_cons, if_pos hxy,
        find?_cons_pos (fun e => samePair e a b) _ _
          (by show samePair { e with data := d } a b = true
              rw [samePair_set_data, samePair_congr _ hp, hxy])]
      rfl
    · rw [List.map_cons, if_neg hxy,
        find?_cons_neg (fun e => samePair e a b) _ _
          (by show samePair e a b = false
              rw [samePair_congr _ hp]; simpa using hxy)]
      refine ih ?_
      rw [List.any_cons] at h
      simpa [hxy] using h

/-- Updating a *different* pair's attributes leaves the lookup at
`{a,b}` unchanged. -/
theorem find?_insert_miss (x y a b : String) (d : EdgeData)
    (hp : pairEq x y a b = false) :
    ∀ es : List GEdge,
      ((es.map (fun e =>
          if samePair e x y then { e with data := d } else e)).find?
        (fun e => samePair e a b)).map (fun e => e.data) =
      (es.find? (fun e => samePair e a b)).map (fun e => e.data) := by
  intro es
  induction es with
  | nil => rfl
  | cons e es ih =>
    by_cases hxy : samePair e x y = true
    · have hab : samePair e a b = false := by
        by_contra hc
        rw [Bool.not_eq_false] at hc
        rw [pairEq_of_samePair hc hxy] at hp
        simp at hp
      rw [List.map_cons, if_pos hxy,
        find?_cons_neg (fun e => samePair e a b) _ _
          (by show samePair { e with data := d } a b = false
              rw [samePair_set_data, hab]),
        find?_cons_neg (fun e => samePair e a b) _ _ hab]
      exact ih
    · rw [List.map_cons, if_neg hxy]
      by_cases hab : samePair e a b = true
      · rw [find?_cons_pos (fun e => samePair e a b) _ _ hab,
          find?_cons_pos (fun e => samePair e a b) _ _ hab]
      · rw [find?_cons_neg (fun e => samePair e a b) _ _ (by simpa using hab),
          find?_cons_neg (fun e => samePair e a b) _ _ (by simpa using hab)]
        exact ih

/-- `get_edge_data` after one `add_edge`: the updated pair sees the new
attributes, everything else is unchanged. -/
theorem getEdgeData_addEdge (g : Graph) (x y a b : String) (d : EdgeData) :
    getEdgeData (addEdge g x y d) a b =
      if pairEq x y a b = true then some d else getEdgeData g a b := by
  have hgoal : getEdgeData (addEdge g x y d) a b =
      ((insertEdge g.edges x y d).find? (fun e => samePair e a b)).map
        (fun e => e.data) := rfl
  rw [hgoal]
  unfold insertEdge
  by_cases hany : g.edges.any (fun e => samePair e x y) = true
  · rw [if_pos hany]
    by_cases hp : pairEq x y a b = true
    · rw [if_pos hp]
      exact find?_insert_hit x y a b d hp g.edges hany
    · rw [if_neg hp]
      exact find?_insert_miss x y a b d (by simpa using hp) g.edges
  · rw [if_neg hany]
    have hnone : ∀ e ∈ g.edges, samePair e x y = false := by
      intro e he
      by_contra hc
      rw [Bool.not_eq_false] at hc
      exact hany (List.any_eq_true.mpr ⟨e, he, hc⟩)
    by_cases hp : pairEq x y a b = true
    · rw [if_pos hp]
      have hfind : g.edges.find? (fun e => samePair e a b) = none := by
        rw [List.find?_eq_none]
        intro e he
        rw [samePair_congr e hp, hnone e he]
        simp
      rw [List.find?_append, hfind, Option.none_or,
        find?_cons_pos (fun e => samePair e a b) _ _
          (show samePair ⟨x, y, d⟩ a b = true from hp)]
      rfl
    · rw [if_neg hp]
      rw [List.find?_append,
        find?_cons_neg (fun e => samePair e a b) _ _
          (show samePair ⟨x, y, d⟩ a b = false by simpa using hp),
        List.find?_nil, Option.or_none]
      rfl

/-- `get_edge_data` after folding one attribute value over a pair list:
the last write wins, but all writes of one line carry the same data. -/
theorem getEdgeData_foldPairs (d : EdgeData) :
    ∀ (pairs : List (String × String)) (g : Graph) (a b : String),
      getEdgeData (pairs.foldl (fun g p => addEdge g p.1 p.2 d) g) a b =
        if pairs.any (fun p => pairEq p.1 p.2 a b) then some d
        else getEdgeData g a b := by
  intro pairs
  induction pairs with
  | nil => intro g a b; simp
  | cons p ps ih =>
    intro g a b
    rw [List.foldl_cons, ih, getEdgeData_addEdge, List.any_cons]
    by_cases h1 : ps.any (fun p => pairEq p.1 p.2 a b) = true <;>
      by_cases h2 : pairEq p.1 p.2 a b = true <;>
      simp [h1, h2]

/-- `get_edge_data` after adding one line's edges. -/
theorem getEdgeData_addLinha (g : Graph) (l : Linha) (a b : String) :
    getEdgeData (addLinha g l) a b =
      if linhaTemPar l a b then some ⟨TEMPO_BASE, l.nome, l.operadora⟩
      else getEdgeData g a b := by
  unfold addLinha linhaTemPar
  exact getEdgeData_foldPairs _ (consecPairs l.estacoes) g a b

/-- `get_edge_data` over the whole topology fold: the pair's attributes
are those written by the *last* line containing it. -/
theorem getEdgeData_foldTopo :
    ∀ (topo : Topology) (g : Graph) (a b : String),
      getEdgeData (topo.foldl addLinha g) a b =
        match (linesWithPair topo a b).getLast? with
        | some l => some ⟨TEMPO_BASE, l.nome, l.operadora⟩
        | none => getEdgeData g a b := by
  intro topo
  induction topo with
  | nil => intro g a b; rfl
  | cons l ls ih =>
    intro g a b
    rw [List.foldl_cons, ih]
    unfold linesWithPair
    rw [List.filter_cons]
    by_cases hl : linhaTemPar l a b
    · rw [if_pos (by simpa using hl)]
      cases hlast : (ls.filter (fun l => linhaTemPar l a b)).getLast? with
      | none =>
        rw [List.getLast?_eq_none_iff] at hlast
        rw [show (ls.filter (fun l => linhaTemPar l a b)) = [] from hlast]
        show getEdgeData (addLinha g l) a b = _
        rw [getEdgeData_addLinha, if_pos hl]
        rfl
      | some l' =>
        have hne : ls.filter (fun l => linhaTemPar l a b) ≠ [] := by
          intro hc
          rw [hc] at hlast
          simp at hlast
        cases hlf : ls.filter (fun l => linhaTemPar l a b) with
        | nil => exact absurd hlf hne
        | cons z zs =>
          rw [hlf] at hlast
          rw [List.getLast?_cons_cons, hlast]
    · rw [if_neg (by simpa using hl)]
      cases hlast : (ls.filter (fun l => linhaTemPar l a b)).getLast? with
      | none =>
        show getEdgeData (addLinha g l) a b = _
        rw [getEdgeData_addLinha, if_neg hl]
      | some l' => rfl

/-- `_build_graph`'s node annotation pass does not change the edges. -/
theorem getEdgeData_buildGraph (topo : Topology) (a b : String) :
    getEdgeData (buildGraph topo) a b =
      getEdgeData (buildGraphEdges topo) a b := rfl

/-! ## Lemmas about the edge-cost function -/

/-- Under the empty status map no line is ever considered degraded. -/
theorem situacaoDegradada_nil (linha : String) :
    situacaoDegradada [] linha = false := rfl

/-- `_calcular_peso` splits as the empty-status cost plus the disruption
penalty of the edge's line. -/
theorem calcularPeso_status_split (g : Graph)
    (status : List (String × String)) (u v modo : String) :
    calcularPeso g status u v modo =
      calcularPeso g [] u v modo +
        (if situacaoDegradada status
            (((getEdgeData g u v).map (fun d => d.linha)).getD "")
          then 10 else 0) := by
  simp only [calcularPeso, situacaoDegradada_nil, Bool.false_eq_true,
    if_false]
  repeat' split
  all_goals omega

/-- The `simples` cost is the `rapido` cost plus 3 exactly when the
*first* endpoint carries the `baldeacoes` attribute. -/
theorem calcularPeso_simples_split (g : Graph)
    (status : List (String × String)) (u v : String) :
    calcularPeso g status u v "simples" =
      calcularPeso g status u v "rapido" +
        (if transferAt g u then 3 else 0) := by
  by_cases ht : transferAt g u <;> simp [calcularPeso, ht]

/-- Every edge cost is at least the base travel time of the edge, which
is `TEMPO_BASE` in any well-formed graph. -/
theorem calcularPeso_ge (g : Graph) (hg : ∀ e ∈ g.edges, e.data.tempo = TEMPO_BASE)
    (status : List (String × String)) (u v modo : String) :
    TEMPO_BASE ≤ calcularPeso g status u v modo := by
  simp only [calcularPeso]
  have htempo : ((getEdgeData g u v).map (fun d => d.tempo)).getD TEMPO_BASE =
      TEMPO_BASE := by
    unfold getEdgeData
    cases hf : g.edges.find? (fun e => samePair e u v) with
    | none => rfl
    | some e =>
      have := List.find?_some hf
      have hm : e ∈ g.edges := List.mem_of_find?_eq_some hf
      simp [hg e hm]
  rw [htempo]
  repeat' split
  all_goals omega

/-! ## Lemmas about `pyMin` (Python `min`, first minimum wins) -/

/-- One step of the `pyMin` fold. -/
theorem pyMin_step (p q : RoutePlan) (qs : List RoutePlan) :
    pyMin p (q :: qs) =
      pyMin (if q.custo_estimado < p.custo_estimado then q else p) qs := rfl

/-- `pyMin` returns a member of the list. -/
theorem pyMin_mem (p : RoutePlan) (ps : List RoutePlan) :
    pyMin p ps ∈ p :: ps := by
  induction ps generalizing p with
  | nil => simp [pyMin]
  | cons q qs ih =>
    rw [pyMin_step]
    rcases List.mem_cons.mp
        (ih (if q.custo_estimado < p.custo_estimado then q else p)) with h | h
    · rw [h]
      split
      · exact List.mem_cons_of_mem _ (List.mem_cons_self _ _)
      · exact List.mem_cons_self _ _
    · exact List.mem_cons_of_mem _ (List.mem_cons_of_mem _ h)

/-- `pyMin` is a lower bound on the costs of the list. -/
theorem pyMin_le (p : RoutePlan) (ps : List RoutePlan) :
    ∀ q ∈ p :: ps, (pyMin p ps).custo_estimado ≤ q.custo_estimado := by
  induction ps generalizing p with
  | nil =>
    intro q hq
    rw [List.mem_singleton] at hq
    subst hq; simp [pyMin]
  | cons r rs ih =>
    intro q hq
    rw [pyMin_step]
    have hb := ih (if r.custo_estimado < p.custo_estimado then r else p)
    have hbest := hb _ (List.mem_cons_self _ _)
    rcases List.mem_cons.mp hq with hq1 | hq1
    · subst hq1
      refine le_trans hbest ?_
      split <;> omega
    · rcases List.mem_cons.mp hq1 with hq2 | hq2
      · subst hq2
        refine le_trans hbest ?_
        split <;> omega
      · exact hb q (List.mem_cons_of_mem _ hq2)

/-- `pyMin` is the *first* minimum: every element strictly before it in
the list has strictly larger cost. -/
theorem pyMin_first (p : RoutePlan) (ps : List RoutePlan) :
    ∃ l₁ l₂, p :: ps = l₁ ++ pyMin p ps :: l₂ ∧
      ∀ q ∈ l₁, (pyMin p ps).custo_estimado < q.custo_estimado := by
  induction ps generalizing p with
  | nil =>
    exact ⟨[], [], by simp [pyMin], by simp⟩
  | cons q qs ih =>
    have hstep := pyMin_step p q qs
    by_cases h : q.custo_estimado < p.custo_estimado
    · rw [if_pos h] at hstep
      obtain ⟨l₁, l₂, heq, hlt⟩ := ih q
      refine ⟨p :: l₁, l₂, ?_, ?_⟩
      · rw [hstep, List.cons_append, ← heq]
      · intro r hr
        rcases List.mem_cons.mp hr with hr1 | hr1
        · subst hr1
          have h2 := pyMin_le q qs q (List.mem_cons_self _ _)
          rw [hstep]; omega
        · rw [hstep]; exact hlt r hr1
    · rw [if_neg h] at hstep
      obtain ⟨l₁, l₂, heq, hlt⟩ := ih p
      cases l₁ with
      | nil =>
        rw [List.nil_append] at heq
        injection heq with h1 h2
        refine ⟨[], q :: qs, ?_, by simp⟩
        rw [hstep, ← h1]
        rfl
      | cons x l₁' =>
        rw [List.cons_append] at heq
        injection heq with h1 h2
        subst h1
        refine ⟨p :: q :: l₁', l₂, ?_, ?_⟩
        · rw [hstep]
          simp only [List.cons_append]
          rw [← h2]
        · intro r hr
          have hp : (pyMin p qs).custo_estimado < p.custo_estimado :=
            hlt p (List.mem_cons_self _ _)
          rcases List.mem_cons.mp hr with hr1 | hr1
          · subst hr1; rw [hstep]; exact hp
          · rcases List.mem_cons.mp hr1 with hr2 | hr2
            · subst hr2; rw [hstep]; omega
            · rw [hstep]; exact hlt r (List.mem_cons_of_mem _ hr2)

/-! ## Lemmas about the heap pop -/

/-- `popMinBy` finds nothing only on the empty queue. -/
theorem popMinBy_none {α : Type} (key : α → Nat) (q : List α) :
    popMinBy key q = none ↔ q = [] := by
  cases q with
  | nil => simp [popMinBy]
  | cons e es =>
    simp only [popMinBy]
    cases popMinBy key es with
    | none => simp
    | some pr =>
      obtain ⟨m, rest⟩ := pr
      by_cases h : key m < key e <;> simp [h]

/-- Popping permutes the queue into the popped entry and the rest. -/
theorem popMinBy_perm {α : Type} (key : α → Nat) :
    ∀ (q : List α) (e : α) (rest : List α),
      popMinBy key q = some (e, rest) → q.Perm (e :: rest) := by
  intro q
  induction q with
  | nil => intro e rest h; simp [popMinBy] at h
  | cons a as ih =>
    intro e rest h
    cases hm : popMinBy key as with
    | none =>
      simp only [popMinBy, hm] at h
      rw [popMinBy_none] at hm
      subst hm
      injection h with h1
      injection h1 with h1 h2
      subst h1; subst h2
      exact List.Perm.refl _
    | some pr =>
      obtain ⟨m, r⟩ := pr
      simp only [popMinBy, hm] at h
      by_cases hk : key m < key a
      · rw [if_pos hk] at h
        injection h with h1
        injection h1 with h1 h2
        subst h1; subst h2
        exact List.Perm.trans (List.Perm.cons a (ih m r hm))
          (List.Perm.swap m a r)
      · rw [if_neg hk] at h
        injection h with h1
        injection h1 with h1 h2
        subst h1; subst h2
        exact List.Perm.refl _

/-! ## Well-formedness of the built graph -/

/-- The inserted node is present. -/
theorem addNode_self (ns : List String) (x : String) : x ∈ addNode ns x := by
  unfold addNode
  split
  · assumption
  · simp

/-- Node insertion preserves the existing nodes. -/
theorem addNode_sub (ns : List String) (x y : String) (h : y ∈ ns) :
    y ∈ addNode ns x := by
  unfold addNode
  split
  · exact h
  · exact List.mem_append_left _ h

/-- Node insertion preserves distinctness. -/
theorem addNode_nodup (ns : List String) (x : String) (h : ns.Nodup) :
    (addNode ns x).Nodup := by
  unfold addNode
  split
  · exact h
  · rename_i hx
    simp [List.nodup_append, h, hx]

/-- The shape of an edge of `insertEdge`: an old edge (possibly with
replaced attributes) or the newly appended one. -/
theorem insertEdge_cases (edges : List GEdge) (a b : String) (d : EdgeData) :
    ∀ e' ∈ insertEdge edges a b d,
      (∃ e ∈ edges, e'.src = e.src ∧ e'.dst = e.dst ∧
        (e'.data = e.data ∨ e'.data = d)) ∨ e' = ⟨a, b, d⟩ := by
  unfold insertEdge
  split
  · intro e' he'
    rw [List.mem_map] at he'
    obtain ⟨e, he, heq⟩ := he'
    left
    refine ⟨e, he, ?_⟩
    split at heq <;> subst heq <;> simp
  · intro e' he'
    rcases List.mem_append.mp he' with h | h
    · exact Or.inl ⟨e', h, rfl, rfl, Or.inl rfl⟩
    · right; simpa using h

/-- `add_edge` preserves graph well-formedness. -/
theorem graphWf_addEdge (g : Graph) (a b : String) (d : EdgeData)
    (hw : GraphWf g) (hd : d.tempo = TEMPO_BASE) :
    GraphWf (addEdge g a b d) := by
  obtain ⟨hnd, hends, htempo⟩ := hw
  refine ⟨addNode_nodup _ _ (addNode_nodup _ _ hnd), ?_, ?_⟩
  · intro e' he'
    rcases insertEdge_cases g.edges a b d e' he' with ⟨e, he, h1, h2, -⟩ | h
    · obtain ⟨hs, hdd⟩ := hends e he
      exact ⟨h1 ▸ addNode_sub _ _ _ (addNode_sub _ _ _ hs),
        h2 ▸ addNode_sub _ _ _ (addNode_sub _ _ _ hdd)⟩
    · subst h
      exact ⟨addNode_sub _ _ _ (addNode_self _ _), addNode_self _ _⟩
  · intro e' he'
    rcases insertEdge_cases g.edges a b d e' he' with ⟨e, he, -, -, h3⟩ | h
    · rcases h3 with h3 | h3
      · rw [h3]; exact htempo e he
      · rw [h3]; exact hd
    · subst h; exact hd

/-- Adding one line's edges preserves graph well-formedness. -/
theorem graphWf_addLinha (l : Linha) :
    ∀ (pairs : List (String × String)) (g : Graph), GraphWf g →
      GraphWf (pairs.foldl
        (fun g p => addEdge g p.1 p.2 ⟨TEMPO_BASE, l.nome, l.operadora⟩) g) := by
  intro pairs
  induction pairs with
  | nil => intro g hg; exact hg
  | cons p ps ih =>
    intro g hg
    exact ih _ (graphWf_addEdge g p.1 p.2 _ hg rfl)

/-- The graph built by `_build_graph` is well-formed. -/
theorem graphWf_buildGraph (topo : Topology) : GraphWf (buildGraph topo) := by
  have hb : ∀ (ls : Topology) (g : Graph), GraphWf g →
      GraphWf (ls.foldl addLinha g) := by
    intro ls
    induction ls with
    | nil => intro g hg; exact hg
    | cons l ls ih =>
      intro g hg
      exact ih _ (graphWf_addLinha l _ g hg)
  have hwe : GraphWf (buildGraphEdges topo) :=
    hb topo ⟨[], [], []⟩ ⟨List.nodup_nil, by simp, by simp⟩
  exact hwe

/-! ## Neighbours and walks -/

/-- Mapping a function over an option does not change presence. -/
theorem isSome_option_map {α β : Type} (o : Option α) (f : α → β) :
    (o.map f).isSome = o.isSome := by
  cases o <;> rfl

/-- A listed neighbour corresponds to an edge. -/
theorem edge_of_mem_neighbors (g : Graph) (v u : String)
    (h : u ∈ neighbors g v) : (getEdgeData g v u).isSome = true := by
  unfold neighbors at h
  rw [List.mem_filterMap] at h
  obtain ⟨e, he, hfe⟩ := h
  have hsp : samePair e v u = true := by
    by_cases h1 : e.src == v
    · rw [if_pos h1] at hfe
      injection hfe with hfe
      simp only [samePair, Bool.or_eq_true, Bool.and_eq_true]
      exact Or.inl ⟨h1, by simp [hfe]⟩
    · rw [if_neg h1] at hfe
      by_cases h2 : e.dst == v
      · rw [if_pos h2] at hfe
        injection hfe with hfe
        simp only [samePair, Bool.or_eq_true, Bool.and_eq_true]
        exact Or.inr ⟨by simp [hfe], h2⟩
      · rw [if_neg h2] at hfe
        exact absurd hfe (by simp)
  unfold getEdgeData
  rw [isSome_option_map, List.find?_isSome]
  exact ⟨e, he, hsp⟩

/-- An edge makes its far endpoint a listed neighbour. -/
theorem mem_neighbors_of_edge (g : Graph) (v u : String)
    (h : (getEdgeData g v u).isSome = true) : u ∈ neighbors g v := by
  unfold getEdgeData at h
  rw [isSome_option_map, List.find?_isSome] at h
  obtain ⟨e, he, hsp⟩ := h
  unfold neighbors
  rw [List.mem_filterMap]
  refine ⟨e, he, ?_⟩
  simp only [samePair, Bool.or_eq_true, Bool.and_eq_true, beq_iff_eq] at hsp
  rcases hsp with ⟨h1, h2⟩ | ⟨h1, h2⟩
  · rw [if_pos (by simp [h1]), h2]
  · by_cases hv : e.src = v
    · rw [if_pos (by simp [hv])]
      rw [hv] at h1
      rw [h2, ← h1]
    · rw [if_neg (by simp [hv]), if_pos (by simp [h2]), h1]

/-- A listed neighbour is a node of a well-formed graph. -/
theorem mem_nodes_of_mem_neighbors (g : Graph)
    (hends : ∀ e ∈ g.edges, e.src ∈ g.nodes ∧ e.dst ∈ g.nodes) (v u : String)
    (h : u ∈ neighbors g v) : u ∈ g.nodes := by
  unfold neighbors at h
  rw [List.mem_filterMap] at h
  obtain ⟨e, he, hfe⟩ := h
  obtain ⟨hs, hd⟩ := hends e he
  by_cases h1 : e.src == v
  · rw [if_pos h1] at hfe
    injection hfe with hfe
    exact hfe ▸ hd
  · rw [if_neg h1] at hfe
    by_cases h2 : e.dst == v
    · rw [if_pos h2] at hfe
      injection hfe with hfe
      exact hfe ▸ hs
    · rw [if_neg h2] at hfe
      exact absurd hfe (by simp)

/-- Extending a walk by an edge from its last node. -/
theorem isWalk_append (g : Graph) (u : String) :
    ∀ (p : List String) (v : String), isWalk g p = true →
      p.getLast? = some v → (getEdgeData g v u).isSome = true →
      isWalk g (p ++ [u]) = true := by
  intro p
  induction p with
  | nil => intro v _ hl _; simp at hl
  | cons a rest ih =>
    intro v hw hl he
    cases rest with
    | nil =>
      simp only [List.getLast?_singleton, Option.some.injEq] at hl
      subst hl
      simpa [isWalk] using he
    | cons b rest' =>
      rw [List.getLast?_cons_cons] at hl
      simp only [isWalk, Bool.and_eq_true] at hw
      have := ih v hw.2 hl he
      simpa [isWalk, hw.1] using this

/-- Appending to a nonempty list keeps its head. -/
theorem head?_append_single (p : List String) (u : String) (x : String)
    (h : p.head? = some x) : (p ++ [u]).head? = some x := by
  cases p with
  | nil => simp at h
  | cons a rest => simpa using h

/-! ## Soundness of the search loops: returned paths are walks -/

/-- A pushed Dijkstra entry keeps the path invariant. -/
theorem pathOk_push (g : Graph) (src : String) (path : List String)
    (node u : String) (hp : PathOk g src path node)
    (he : (getEdgeData g node u).isSome = true) :
    PathOk g src (path ++ [u]) u := by
  obtain ⟨hw, hh, hl⟩ := hp
  exact ⟨isWalk_append g u path node hw hl he,
    head?_append_single _ _ _ hh, List.getLast?_concat _⟩

/-- Any path returned by the Dijkstra loop is a walk from the source to
the target. -/
theorem dijkstraLoop_sound (g : Graph) (w : String → String → Nat)
    (target src : String) :
    ∀ (fuel : Nat) (queue : List QEntry) (fin : List String),
      (∀ e ∈ queue, PathOk g src e.path e.node) →
      ∀ p, dijkstraLoop g w target fuel queue fin = some p →
        PathOk g src p target := by
  intro fuel
  induction fuel with
  | zero =>
    intro queue fin hq p hr
    simp [dijkstraLoop] at hr
  | succ fuel ih =>
    intro queue fin hq p hr
    cases hpop : popMinBy (fun e => e.dist) queue with
    | none =>
      simp only [dijkstraLoop, hpop] at hr
      simp at hr
    | some pr =>
      obtain ⟨e, rest⟩ := pr
      have hperm := popMinBy_perm _ queue e rest hpop
      have he : PathOk g src e.path e.node :=
        hq e (hperm.mem_iff.mpr (List.mem_cons_self _ _))
      have hrest : ∀ x ∈ rest, PathOk g src x.path x.node :=
        fun x hx => hq x (hperm.mem_iff.mpr (List.mem_cons_of_mem _ hx))
      simp only [dijkstraLoop, hpop] at hr
      by_cases hfin : e.node ∈ fin
      · rw [if_pos hfin] at hr
        exact ih rest fin hrest p hr
      · rw [if_neg hfin] at hr
        by_cases htgt : e.node = target
        · rw [if_pos htgt] at hr
          injection hr with hr
          subst hr
          exact htgt ▸ he
        · rw [if_neg htgt] at hr
          refine ih _ _ ?_ p hr
          intro x hx
          rcases List.mem_append.mp hx with hx | hx
          · exact hrest x hx
          · rw [List.mem_filterMap] at hx
            obtain ⟨u, hu, hif⟩ := hx
            by_cases hmem : u ∈ (e.node :: fin)
            · rw [if_pos hmem] at hif; cases hif
            · rw [if_neg hmem] at hif
              injection hif with hif
              subst hif
              exact pathOk_push g src e.path e.node u he
                (edge_of_mem_neighbors g e.node u hu)

/-- The neighbour pass of A* only appends entries keeping the path
invariant. -/
theorem astarExpand_paths (w : String → String → Nat)
    (h : String → Option Nat) (g : Graph) (src : String) (e : AEntry)
    (he : PathOk g src e.path e.node) :
    ∀ (ns : List String), (∀ u ∈ ns, u ∈ neighbors g e.node) →
      ∀ (acc : List AEntry × List (String × Nat × Nat)),
        (∀ x ∈ acc.1, PathOk g src x.path x.node) →
        ∀ res, ns.foldl (fun acc u =>
            match acc with
            | none => none
            | some st =>
              let ncost := e.dist + w e.node u
              match enqLookup st.2 u with
              | some qh =>
                if qh.1 ≤ ncost then some st
                else some (st.1 ++ [(⟨ncost + qh.2, u, ncost,
                    e.path ++ [u]⟩ : AEntry)],
                  enqInsert st.2 u (ncost, qh.2))
              | none =>
                match h u with
                | none => none
                | some hu =>
                  some (st.1 ++ [(⟨ncost + hu, u, ncost,
                      e.path ++ [u]⟩ : AEntry)],
                    enqInsert st.2 u (ncost, hu))) (some acc) = some res →
          ∀ x ∈ res.1, PathOk g src x.path x.node := by
  intro ns
  induction ns with
  | nil =>
    intro _ acc hacc res hres
    simp only [List.foldl_nil] at hres
    injection hres with hres
    subst hres
    exact hacc
  | cons u us ih =>
    intro hns acc hacc res hres
    rw [List.foldl_cons] at hres
    have hu : u ∈ neighbors g e.node := hns u (List.mem_cons_self _ _)
    have hus : ∀ v ∈ us, v ∈ neighbors g e.node :=
      fun v hv => hns v (List.mem_cons_of_mem _ hv)
    have hnew : PathOk g src (e.path ++ [u]) u :=
      pathOk_push g src e.path e.node u he (edge_of_mem_neighbors g e.node u hu)
    cases hlk : enqLookup acc.2 u with
    | some qh =>
      by_cases hle : qh.1 ≤ e.dist + w e.node u
      · refine ih hus acc hacc res ?_
        simpa only [hlk, if_pos hle] using hres
      · refine ih hus (acc.1 ++ [⟨e.dist + w e.node u + qh.2, u,
          e.dist + w e.node u, e.path ++ [u]⟩],
          enqInsert acc.2 u (e.dist + w e.node u, qh.2)) ?_ res ?_
        · intro x hx
          rcases List.mem_append.mp hx with hx | hx
          · exact hacc x hx
          · rw [List.mem_singleton] at hx
            subst hx
            exact hnew
        · simpa only [hlk, if_neg hle] using hres
    | none =>
      cases hh : h u with
      | none =>
        rw [show (match some acc with
            | none => none
            | some st =>
              let ncost := e.dist + w e.node u
              match enqLookup st.2 u with
              | some qh =>
                if qh.1 ≤ ncost then some st
                else some (st.1 ++ [(⟨ncost + qh.2, u, ncost,
                    e.path ++ [u]⟩ : AEntry)],
                  enqInsert st.2 u (ncost, qh.2))
              | none =>
                match h u with
                | none => none
                | some hu =>
                  some (st.1 ++ [(⟨ncost + hu, u, ncost,
                      e.path ++ [u]⟩ : AEntry)],
                    enqInsert st.2 u (ncost, hu))) =
            (none : Option (List AEntry × List (String × Nat × Nat)))
          by simp only [hlk, hh]] at hres
        have : ∀ (l : List String),
            l.foldl (fun acc u =>
              match acc with
              | none => none
              | some st =>
                let ncost := e.dist + w e.node u
                match enqLookup st.2 u with
                | some qh =>
                  if qh.1 ≤ ncost then some st
                  else some (st.1 ++ [(⟨ncost + qh.2, u, ncost,
                      e.path ++ [u]⟩ : AEntry)],
                    enqInsert st.2 u (ncost, qh.2))
                | none =>
                  match h u with
                  | none => none
                  | some hu =>
                    some (st.1 ++ [(⟨ncost + hu, u, ncost,
                        e.path ++ [u]⟩ : AEntry)],
                      enqInsert st.2 u (ncost, hu)))
              (none : Option (List AEntry × List (String × Nat × Nat))) =
              none := by
          intro l
          induction l with
          | nil => rfl
          | cons a as iha => simpa using iha
        rw [this] at hres
        cases hres
      | some hu2 =>
        refine ih hus (acc.1 ++ [⟨e.dist + w e.node u + hu2, u,
          e.dist + w e.node u, e.path ++ [u]⟩],
          enqInsert acc.2 u (e.dist + w e.node u, hu2)) ?_ res ?_
        · intro x hx
          rcases List.mem_append.mp hx with hx | hx
          · exact hacc x hx
          · rw [List.mem_singleton] at hx
            subst hx
            exact hnew
        · simpa only [hlk, hh] using hres

/-- Any path returned by the A* loop is a walk from the source to the
target. -/
theorem astarLoop_sound (g : Graph) (w : String → String → Nat)
    (h : String → Option Nat) (target src : String) :
    ∀ (fuel : Nat) (queue : List AEntry) (explored : List String)
      (enqueued : List (String × Nat × Nat)),
      (∀ e ∈ queue, PathOk g src e.path e.node) →
      ∀ p, astarLoop g w h target fuel queue explored enqueued = some p →
        PathOk g src p target := by
  intro fuel
  induction fuel with
  | zero =>
    intro queue explored enqueued hq p hr
    simp [astarLoop] at hr
  | succ fuel ih =>
    intro queue explored enqueued hq p hr
    cases hpop : popMinBy (fun e => e.prio) queue with
    | none =>
      simp only [astarLoop, hpop] at hr
      simp at hr
    | some pr =>
      obtain ⟨e, rest⟩ := pr
      have hperm := popMinBy_perm _ queue e rest hpop
      have he : PathOk g src e.path e.node :=
        hq e (hperm.mem_iff.mpr (List.mem_cons_self _ _))
      have hrest : ∀ x ∈ rest, PathOk g src x.path x.node :=
        fun x hx => hq x (hperm.mem_iff.mpr (List.mem_cons_of_mem _ hx))
      simp only [astarLoop, hpop] at hr
      by_cases htgt : e.node = target
      · rw [if_pos htgt] at hr
        injection hr with hr
        subst hr
        exact htgt ▸ he
      · rw [if_neg htgt] at hr
        by_cases hex : e.node ∈ explored
        · rw [if_pos hex] at hr
          exact ih rest explored enqueued hrest p hr
        · rw [if_neg hex] at hr
          cases hstep : astarExpand w h e (neighbors g e.node) enqueued with
          | none => rw [hstep] at hr; cases hr
          | some st =>
            rw [hstep] at hr
            refine ih _ _ _ ?_ p hr
            intro x hx
            rcases List.mem_append.mp hx with hx | hx
            · exact hrest x hx
            · exact astarExpand_paths w h g src e he (neighbors g e.node)
                (fun u hu => hu) ([], enqueued) (by simp) st hstep x hx

/-! ## Completeness of the Dijkstra loop -/

/-- A set of nodes closed under adjacency traps every walk that starts
inside it. -/
theorem walk_closed (g : Graph) (fin : List String)
    (hclosed : ∀ v ∈ fin, ∀ u ∈ neighbors g v, u ∈ fin) :
    ∀ p, isWalk g p = true → ∀ s t, p.head? = some s → s ∈ fin →
      p.getLast? = some t → t ∈ fin := by
  intro p
  induction p with
  | nil => intro _ s t hh; simp at hh
  | cons a rest ih =>
    intro hw s t hh hs hl
    rw [List.head?_cons, Option.some.injEq] at hh
    subst hh
    cases rest with
    | nil =>
      rw [List.getLast?_singleton, Option.some.injEq] at hl
      subst hl
      exact hs
    | cons b rest' =>
      simp only [isWalk, Bool.and_eq_true] at hw
      have hb : b ∈ fin :=
        hclosed a hs b (mem_neighbors_of_edge g a b hw.1)
      rw [List.getLast?_cons_cons] at hl
      exact ih hw.2 b t rfl hb hl

/-- `filterMap` cannot lengthen a list. -/
theorem length_filterMap_le' {α β : Type} (f : α → Option β) :
    ∀ l : List α, (l.filterMap f).length ≤ l.length := by
  intro l
  induction l with
  | nil => simp
  | cons a as ih =>
    rw [List.filterMap_cons]
    cases f a with
    | none => exact Nat.le_succ_of_le ih
    | some b => simpa using ih

/-- Removing a node from the unfinalized set shifts `degSum` by the
node's degree. -/
theorem degSum_remove (f : String → Nat) (v : String) (fin : List String) :
    ∀ ns : List String, ns.Nodup → v ∈ ns → v ∉ fin →
      ((ns.filter (fun x => decide (x ∉ v :: fin))).map f).sum + f v =
        ((ns.filter (fun x => decide (x ∉ fin))).map f).sum := by
  intro ns
  induction ns with
  | nil => intro _ hv; simp at hv
  | cons a as ih =>
    intro hnd hv hvfin
    rw [List.nodup_cons] at hnd
    rw [List.filter_cons, List.filter_cons]
    by_cases hav : a = v
    · subst hav
      rw [if_neg (by simp), if_pos (by simpa using hvfin)]
      have hsame : as.filter (fun x => decide (x ∉ a :: fin)) =
          as.filter (fun x => decide (x ∉ fin)) := by
        apply List.filter_congr
        intro x hx
        have hxa : x ≠ a := fun hxa => hnd.1 (hxa ▸ hx)
        simp [List.mem_cons, hxa]
      rw [hsame, List.map_cons, List.sum_cons]
      omega
    · have hvas : v ∈ as := by
        rcases List.mem_cons.mp hv with h | h
        · exact absurd h.symm hav
        · exact h
      have hstep := ih hnd.2 hvas hvfin
      by_cases ha : a ∈ fin
      · rw [if_neg (by simp [ha]), if_neg (by simp [ha])]
        exact hstep
      · rw [if_pos (by simp [List.mem_cons, hav, ha]),
          if_pos (by simpa using ha),
          List.map_cons, List.sum_cons, List.map_cons, List.sum_cons]
        omega

/-- Finalizing a node decreases `degSum` by that node's degree. -/
theorem degSum_cons (g : Graph) (v : String) (fin : List String)
    (hnd : g.nodes.Nodup) (hv : v ∈ g.nodes) (hvfin : v ∉ fin) :
    degSum g (v :: fin) + (neighbors g v).length = degSum g fin := by
  unfold degSum
  exact degSum_remove (fun v => (neighbors g v).length) v fin g.nodes hnd
    hv hvfin

/-- The Dijkstra loop cannot fail when the target is reachable from the
source: it has enough fuel, and on exhaustion of the queue the finalized
set would be adjacency-closed around the source yet avoid the target. -/
theorem dijkstraLoop_complete (g : Graph) (w : String → String → Nat)
    (target src : String) (hnd : g.nodes.Nodup)
    (hends : ∀ e ∈ g.edges, e.src ∈ g.nodes ∧ e.dst ∈ g.nodes)
    (hreach : ∃ p, isWalk g p = true ∧ p.head? = some src ∧
      p.getLast? = some target) :
    ∀ (fuel : Nat) (queue : List QEntry) (fin : List String),
      queue.length + degSum g fin ≤ fuel →
      (∀ v ∈ fin, v ∈ g.nodes) →
      (∀ e ∈ queue, e.node ∈ g.nodes) →
      (∀ v ∈ fin, ∀ u ∈ neighbors g v, u ∈ fin ∨ ∃ e ∈ queue, e.node = u) →
      (src ∈ fin ∨ ∃ e ∈ queue, e.node = src) →
      target ∉ fin →
      dijkstraLoop g w target fuel queue fin ≠ none := by
  intro fuel
  induction fuel with
  | zero =>
    intro queue fin hlen hfn hqn hclosed hsrc htgt hnone
    have hq : queue = [] := by
      cases queue with
      | nil => rfl
      | cons a as => simp at hlen
    subst hq
    have hclosed' : ∀ v ∈ fin, ∀ u ∈ neighbors g v, u ∈ fin := by
      intro v hv u hu
      rcases hclosed v hv u hu with h | ⟨e, he, -⟩
      · exact h
      · simp at he
    have hsrc' : src ∈ fin := by
      rcases hsrc with h | ⟨e, he, -⟩
      · exact h
      · simp at he
    obtain ⟨p, hw, hh, hl⟩ := hreach
    exact htgt (walk_closed g fin hclosed' p hw src target hh hsrc' hl)
  | succ fuel ih =>
    intro queue fin hlen hfn hqn hclosed hsrc htgt hnone
    cases hpop : popMinBy (fun e => e.dist) queue with
    | none =>
      rw [popMinBy_none] at hpop
      subst hpop
      have hclosed' : ∀ v ∈ fin, ∀ u ∈ neighbors g v, u ∈ fin := by
        intro v hv u hu
        rcases hclosed v hv u hu with h | ⟨e, he, -⟩
        · exact h
        · simp at he
      have hsrc' : src ∈ fin := by
        rcases hsrc with h | ⟨e, he, -⟩
        · exact h
        · simp at he
      obtain ⟨p, hw, hh, hl⟩ := hreach
      exact htgt (walk_closed g fin hclosed' p hw src target hh hsrc' hl)
    | some pr =>
      obtain ⟨e, rest⟩ := pr
      have hperm := popMinBy_perm _ queue e rest hpop
      have hqlen : queue.length = rest.length + 1 := by
        have := hperm.length_eq
        simpa using this
      have hmemq : ∀ x ∈ queue, x = e ∨ x ∈ rest := by
        intro x hx
        exact List.mem_cons.mp (hperm.mem_iff.mp hx)
      have hen : e.node ∈ g.nodes :=
        hqn e (hperm.mem_iff.mpr (List.mem_cons_self _ _))
      simp only [dijkstraLoop, hpop] at hnone
      by_cases hfin : e.node ∈ fin
      · rw [if_pos hfin] at hnone
        refine ih rest fin (by omega) hfn
          (fun x hx => hqn x (hperm.mem_iff.mpr (List.mem_cons_of_mem _ hx)))
          ?_ ?_ htgt hnone
        · intro v hv u hu
          rcases hclosed v hv u hu with h | ⟨e', he', hn⟩
          · exact Or.inl h
          · rcases hmemq e' he' with h | h
            · subst h
              exact Or.inl (hn ▸ hfin)
            · exact Or.inr ⟨e', h, hn⟩
        · rcases hsrc with h | ⟨e', he', hn⟩
          · exact Or.inl h
          · rcases hmemq e' he' with h | h
            · subst h
              exact Or.inl (hn ▸ hfin)
            · exact Or.inr ⟨e', h, hn⟩
      · rw [if_neg hfin] at hnone
        by_cases htgt2 : e.node = target
        · rw [if_pos htgt2] at hnone
          cases hnone
        · rw [if_neg htgt2] at hnone
          have hpushlen : ((neighbors g e.node).filterMap (fun u =>
              if u ∈ (e.node :: fin) then none
              else some (⟨e.dist + w e.node u, u,
                e.path ++ [u]⟩ : QEntry))).length ≤
              (neighbors g e.node).length :=
            length_filterMap_le' _ _
          have hdeg := degSum_cons g e.node fin hnd hen hfin
          have hpush_mem : ∀ x ∈ (neighbors g e.node).filterMap (fun u =>
              if u ∈ (e.node :: fin) then none
              else some (⟨e.dist + w e.node u, u,
                e.path ++ [u]⟩ : QEntry)),
              ∃ u, u ∈ neighbors g e.node ∧ u ∉ (e.node :: fin) ∧
                x.node = u := by
            intro x hx
            rw [List.mem_filterMap] at hx
            obtain ⟨u, hu, hif⟩ := hx
            by_cases hmem : u ∈ (e.node :: fin)
            · rw [if_pos hmem] at hif; cases hif
            · rw [if_neg hmem] at hif
              injection hif with hif
              exact ⟨u, hu, hmem, by rw [← hif]⟩
          refine ih _ _ ?_ ?_ ?_ ?_ ?_ ?_ hnone
          · rw [List.length_append]
            omega
          · intro v hv
            rcases List.mem_cons.mp hv with h | h
            · exact h ▸ hen
            · exact hfn v h
          · intro x hx
            rcases List.mem_append.mp hx with hx | hx
            · exact hqn x (hperm.mem_iff.mpr (List.mem_cons_of_mem _ hx))
            · obtain ⟨u, hu, -, hxu⟩ := hpush_mem x hx
              exact hxu ▸ mem_nodes_of_mem_neighbors g hends e.node u hu
          · intro v hv u hu
            rcases List.mem_cons.mp hv with hv1 | hv1
            · subst hv1
              by_cases hmem : u ∈ (e.node :: fin)
              · exact Or.inl hmem
              · refine Or.inr ⟨⟨e.dist + w e.node u, u, e.path ++ [u]⟩, ?_, rfl⟩
                refine List.mem_append_right _ ?_
                rw [List.mem_filterMap]
                exact ⟨u, hu, by rw [if_neg hmem]⟩
            · rcases hclosed v hv1 u hu with h | ⟨e', he', hn⟩
              · exact Or.inl (List.mem_cons_of_mem _ h)
              · rcases hmemq e' he' with h | h
                · subst h
                  exact Or.inl (hn ▸ List.mem_cons_self _ _)
                · exact Or.inr ⟨e', List.mem_append_left _ h, hn⟩
          · rcases hsrc with h | ⟨e', he', hn⟩
            · exact Or.inl (List.mem_cons_of_mem _ h)
            · rcases hmemq e' he' with h | h
              · subst h
                exact Or.inl (hn ▸ List.mem_cons_self _ _)
              · exact Or.inr ⟨e', List.mem_append_left _ h, hn⟩
          · intro hc
            rcases List.mem_cons.mp hc with h | h
            · exact htgt2 h.symm
            · exact htgt h

/-! ## The per-profile searches as seen by `plan_route` -/

/-- `dijkstra_path` succeeds (with some path) whenever the source lies in
a well-formed graph and the target is connected to it. -/
theorem dijkstra_some (g : Graph) (w : String → String → Nat)
    (source target : String) (hnd : g.nodes.Nodup)
    (hends : ∀ e ∈ g.edges, e.src ∈ g.nodes ∧ e.dst ∈ g.nodes)
    (hsrc : source ∈ g.nodes) (hconn : Connected g source target) :
    ∃ p, dijkstra g w source target = .ok (some p) := by
  unfold dijkstra
  rw [if_pos hsrc]
  by_cases hts : target = source
  · rw [if_pos hts]
    exact ⟨[source], rfl⟩
  · rw [if_neg hts]
    have hne := dijkstraLoop_complete g w target source hnd hends hconn
      (degSum g [] + 2) [⟨0, source, [source]⟩] []
      (by simp; omega)
      (by simp)
      (by intro e he; rw [List.mem_singleton] at he; subst he; exact hsrc)
      (by simp)
      (Or.inr ⟨⟨0, source, [source]⟩, List.mem_singleton.mpr rfl, rfl⟩)
      (by simp)
    obtain ⟨p, hp⟩ := Option.ne_none_iff_exists'.mp hne
    exact ⟨p, by rw [hp]⟩

/-- `dijkstra_path` never raises `NodeNotFound` when its source is a
graph node. -/
theorem dijkstra_ok (g : Graph) (w : String → String → Nat)
    (source target : String) (hsrc : source ∈ g.nodes) :
    ∃ r, dijkstra g w source target = .ok r := by
  unfold dijkstra
  rw [if_pos hsrc]
  by_cases hts : target = source
  · rw [if_pos hts]; exact ⟨_, rfl⟩
  · rw [if_neg hts]; exact ⟨_, rfl⟩

/-- `astar_path` never raises `NodeNotFound` when both endpoints are
graph nodes. -/
theorem astar_ok (g : Graph) (w : String → String → Nat)
    (h : String → Option Nat) (source target : String)
    (hsrc : source ∈ g.nodes) (htgt : target ∈ g.nodes) :
    ∃ r, astar g w h source target = .ok r := by
  unfold astar
  rw [if_pos ⟨hsrc, htgt⟩]
  exact ⟨_, rfl⟩

/-- The shape of a successful profile result: the fields of the built
`RoutePlan`, and its path being a walk from the resolved origin to the
resolved destination. -/
theorem tryModo_shape (g : Graph) (status : List (String × String))
    (o d modo : String) (plan : RoutePlan)
    (h : tryModo g status o d modo = .ok (some plan)) :
    plan.origem = o ∧ plan.destino = d ∧ plan.modo = modo ∧
      plan.custo_estimado = custoTotal g status plan.caminho modo ∧
      plan.baldeacoes = detectarBaldeacoes g plan.caminho ∧
      PathOk g o plan.caminho d := by
  simp only [tryModo] at h
  by_cases hm : modo = "simples"
  · rw [if_pos hm] at h
    unfold dijkstra at h
    by_cases ho : o ∈ g.nodes
    · rw [if_pos ho] at h
      by_cases hdo : d = o
      · rw [if_pos hdo] at h
        injection h with h
        injection h with h
        subst h
        subst hdo
        exact ⟨rfl, rfl, rfl, rfl, rfl, by simp [PathOk, isWalk]⟩
      · rw [if_neg hdo] at h
        cases hloop : dijkstraLoop g
            (fun u v => calcularPeso g status u v modo) d (degSum g [] + 2)
            [⟨0, o, [o]⟩] [] with
        | none => rw [hloop] at h; cases h
        | some p =>
          rw [hloop] at h
          injection h with h
          injection h with h
          subst h
          have hsound := dijkstraLoop_sound g
            (fun u v => calcularPeso g status u v modo) d o
            (degSum g [] + 2) [⟨0, o, [o]⟩] []
            (by
              intro e he
              rw [List.mem_singleton] at he
              subst he
              exact ⟨rfl, rfl, rfl⟩)
            p hloop
          exact ⟨rfl, rfl, rfl, rfl, rfl, hsound⟩
    · rw [if_neg ho] at h
      cases h
  · rw [if_neg hm] at h
    unfold astar at h
    by_cases hod : o ∈ g.nodes ∧ d ∈ g.nodes
    · rw [if_pos hod] at h
      cases hloop : astarLoop g (fun u v => calcularPeso g status u v modo)
          (heuristicFor g d) d (degSum g [] + 2) [⟨0, o, 0, [o]⟩] [] [] with
      | none => rw [hloop] at h; cases h
      | some p =>
        rw [hloop] at h
        injection h with h
        injection h with h
        subst h
        have hsound := astarLoop_sound g
          (fun u v => calcularPeso g status u v modo) (heuristicFor g d) d o
          (degSum g [] + 2) [⟨0, o, 0, [o]⟩] [] []
          (by
            intro e he
            rw [List.mem_singleton] at he
            subst he
            exact ⟨rfl, rfl, rfl⟩)
          p hloop
        exact ⟨rfl, rfl, rfl, rfl, rfl, hsound⟩
    · rw [if_neg hod] at h
      cases h

/-- A profile search never raises when both resolved endpoints are graph
nodes. -/
theorem tryModo_ok (g : Graph) (status : List (String × String))
    (o d modo : String) (ho : o ∈ g.nodes) (hd : d ∈ g.nodes) :
    ∃ r, tryModo g status o d modo = .ok r := by
  simp only [tryModo]
  by_cases hm : modo = "simples"
  · rw [if_pos hm]
    obtain ⟨r, hr⟩ := dijkstra_ok g
      (fun u v => calcularPeso g status u v modo) o d ho
    rw [hr]
    cases r with
    | none => exact ⟨none, rfl⟩
    | some p => exact ⟨_, rfl⟩
  · rw [if_neg hm]
    obtain ⟨r, hr⟩ := astar_ok g (fun u v => calcularPeso g status u v modo)
      (heuristicFor g d) o d ho hd
    rw [hr]
    cases r with
    | none => exact ⟨none, rfl⟩
    | some p => exact ⟨_, rfl⟩

/-- The `simples` profile finds a plan whenever the resolved endpoints
are connected. -/
theorem tryModo_simples_some (g : Graph) (status : List (String × String))
    (o d : String) (hnd : g.nodes.Nodup)
    (hends : ∀ e ∈ g.edges, e.src ∈ g.nodes ∧ e.dst ∈ g.nodes)
    (ho : o ∈ g.nodes) (hconn : Connected g o d) :
    ∃ plan, tryModo g status o d "simples" = .ok (some plan) := by
  simp only [tryModo, if_true]
  obtain ⟨p, hp⟩ := dijkstra_some g
    (fun u v => calcularPeso g status u v "simples") o d hnd hends ho hconn
  rw [hp]
  exact ⟨_, rfl⟩

/-! ## The profile loop of `plan_route` -/

/-- The profile loop never raises when both resolved endpoints are graph
nodes. -/
theorem modePlans_ok (g : Graph) (status : List (String × String))
    (o d : String) (ho : o ∈ g.nodes) (hd : d ∈ g.nodes) :
    ∃ l, modePlans g status o d = .ok l := by
  obtain ⟨r1, h1⟩ := tryModo_ok g status o d "rapido" ho hd
  obtain ⟨r2, h2⟩ := tryModo_ok g status o d "simples" ho hd
  obtain ⟨r3, h3⟩ := tryModo_ok g status o d "acessivel" ho hd
  unfold modePlans
  rw [h1, h2, h3]
  exact ⟨_, rfl⟩

/-- Every plan collected by the profile loop comes from one of the three
profiles. -/
theorem modePlans_mem (g : Graph) (status : List (String × String))
    (o d : String) (l : List RoutePlan)
    (h : modePlans g status o d = .ok l) :
    ∀ plan ∈ l, ∃ modo,
      (modo = "rapido" ∨ modo = "simples" ∨ modo = "acessivel") ∧
      tryModo g status o d modo = .ok (some plan) := by
  unfold modePlans at h
  cases h1 : tryModo g status o d "rapido" with
  | error e => rw [h1] at h; cases h
  | ok r1 =>
    rw [h1] at h
    cases h2 : tryModo g status o d "simples" with
    | error e => rw [h2] at h; cases h
    | ok r2 =>
      rw [h2] at h
      cases h3 : tryModo g status o d "acessivel" with
      | error e => rw [h3] at h; cases h
      | ok r3 =>
        rw [h3] at h
        injection h with h
        subst h
        intro plan hp
        rw [List.mem_filterMap] at hp
        obtain ⟨x, hx, hid⟩ := hp
        simp only [id] at hid
        subst hid
        rcases List.mem_cons.mp hx with hx | hx
        · exact ⟨"rapido", Or.inl rfl, hx ▸ h1⟩
        · rcases List.mem_cons.mp hx with hx | hx
          · exact ⟨"simples", Or.inr (Or.inl rfl), hx ▸ h2⟩
          · rw [List.mem_singleton] at hx
            exact ⟨"acessivel", Or.inr (Or.inr rfl), hx ▸ h3⟩

/-- A plan found by the `simples` profile is collected by the loop. -/
theorem modePlans_contains_simples (g : Graph)
    (status : List (String × String)) (o d : String) (l : List RoutePlan)
    (plan : RoutePlan) (h : modePlans g status o d = .ok l)
    (hs : tryModo g status o d "simples" = .ok (some plan)) :
    plan ∈ l := by
  unfold modePlans at h
  cases h1 : tryModo g status o d "rapido" with
  | error e => rw [h1] at h; cases h
  | ok r1 =>
    rw [h1] at h
    rw [hs] at h
    cases h3 : tryModo g status o d "acessivel" with
    | error e => rw [h3] at h; cases h
    | ok r3 =>
      rw [h3] at h
      injection h with h
      subst h
      rw [List.mem_filterMap]
      exact ⟨some plan, by simp, rfl⟩

/-- The plans collected by the profile loop carry their profile names in
the fixed priority order `rapido, simples, acessivel`. -/
theorem modePlans_modos (g : Graph) (status : List (String × String))
    (o d : String) (l : List RoutePlan)
    (h : modePlans g status o d = .ok l) :
    List.Sublist (l.map (fun p => p.modo))
      ["rapido", "simples", "acessivel"] := by
  unfold modePlans at h
  cases h1 : tryModo g status o d "rapido" with
  | error e => rw [h1] at h; cases h
  | ok r1 =>
    rw [h1] at h
    cases h2 : tryModo g status o d "simples" with
    | error e => rw [h2] at h; cases h
    | ok r2 =>
      rw [h2] at h
      cases h3 : tryModo g status o d "acessivel" with
      | error e => rw [h3] at h; cases h
      | ok r3 =>
        rw [h3] at h
        injection h with h
        subst h
        cases r1 with
        | some p1 =>
          have hm1 := (tryModo_shape g status o d "rapido" p1 h1).2.2.1
          cases r2 with
          | some p2 =>
            have hm2 := (tryModo_shape g status o d "simples" p2 h2).2.2.1
            cases r3 with
            | some p3 =>
              have hm3 :=
                (tryModo_shape g status o d "acessivel" p3 h3).2.2.1
              simp [hm1, hm2, hm3]
            | none => simp [hm1, hm2]
          | none =>
            cases r3 with
            | some p3 =>
              have hm3 :=
                (tryModo_shape g status o d "acessivel" p3 h3).2.2.1
              simp [hm1, hm3]
            | none => simp [hm1]
        | none =>
          cases r2 with
          | some p2 =>
            have hm2 := (tryModo_shape g status o d "simples" p2 h2).2.2.1
            cases r3 with
            | some p3 =>
              have hm3 :=
                (tryModo_shape g status o d "acessivel" p3 h3).2.2.1
              simp [hm2, hm3]
            | none => simp [hm2]
          | none =>
            cases r3 with
            | some p3 =>
              have hm3 :=
                (tryModo_shape g status o d "acessivel" p3 h3).2.2.1
              simp [hm3]
            | none => simp

/-! ## Properties of transfer detection and total cost -/

/-- The transfer indices recorded by `_detectar_baldeacoes` are strictly
increasing. -/
theorem lineChanges_pairwise (linhas : List String) :
    List.Pairwise (· < ·) (lineChanges linhas) :=
  (List.pairwise_lt_range linhas.length).sublist (List.filter_sublist _)

/-- A recorded transfer index is at least 1 and marks a genuine line
change. -/
theorem lineChanges_mem (linhas : List String) (idx : Nat)
    (h : idx ∈ lineChanges linhas) :
    1 ≤ idx ∧ linhas.getD idx "" ≠ linhas.getD (idx - 1) "" := by
  unfold lineChanges at h
  rw [List.mem_filter] at h
  obtain ⟨-, hc⟩ := h
  rw [Bool.and_eq_true, decide_eq_true_iff, Bool.not_eq_eq_eq_not,
    Bool.not_true, beq_eq_false_iff_ne] at hc
  exact hc

/-- Every recorded transfer changes lines: `from_line ≠ to_line`. -/
theorem detectarBaldeacoes_ne (g : Graph) (caminho : List String) :
    ∀ t ∈ detectarBaldeacoes g caminho, t.2.1 ≠ t.2.2 := by
  intro t ht
  unfold detectarBaldeacoes at ht
  rw [List.mem_map] at ht
  obtain ⟨idx, hidx, hteq⟩ := ht
  obtain ⟨-, hne⟩ := lineChanges_mem _ idx hidx
  subst hteq
  intro hc
  have hc' : (pathLines g caminho).getD (idx - 1) "" =
      (pathLines g caminho).getD idx "" := hc
  exact hne hc'.symm

/-- A sum of elements all at least `c` is at least `c` times the count. -/
theorem sum_ge_card (c : Nat) :
    ∀ l : List Nat, (∀ x ∈ l, c ≤ x) → c * l.length ≤ l.sum := by
  intro l
  induction l with
  | nil => simp
  | cons a as ih =>
    intro h
    have ha := h a (List.mem_cons_self _ _)
    have has := ih (fun x hx => h x (List.mem_cons_of_mem _ hx))
    rw [List.sum_cons, List.length_cons, Nat.mul_succ]
    omega

/-- The number of segments of a path is one less than its length. -/
theorem consecPairs_length (p : List String) :
    (consecPairs p).length = p.length - 1 := by
  cases p with
  | nil => rfl
  | cons a t =>
    unfold consecPairs
    rw [List.length_zip]
    simp

/-- The total path cost of any profile dominates the hop count in a
graph whose edges all carry the base travel time. -/
theorem custoTotal_ge (g : Graph)
    (hg : ∀ e ∈ g.edges, e.data.tempo = TEMPO_BASE)
    (status : List (String × String)) (caminho : List String)
    (modo : String) :
    caminho.length - 1 ≤ custoTotal g status caminho modo := by
  unfold custoTotal
  have hbound := sum_ge_card TEMPO_BASE
    ((consecPairs caminho).map (fun p => calcularPeso g status p.1 p.2 modo))
    (by
      intro x hx
      rw [List.mem_map] at hx
      obtain ⟨pr, -, hpr⟩ := hx
      exact hpr ▸ calcularPeso_ge g hg status pr.1 pr.2 modo)
  rw [List.length_map, consecPairs_length,
    show TEMPO_BASE = 3 from rfl] at hbound
  omega

/-! ## Lemmas about the station resolver -/

/-- Matching against the empty word yields no matched characters. -/
theorem matchingSize_nil (a : List Char) : matchingSize a [] = 0 := by
  have hfold : ∀ (l : List Nat)
      (st : (Nat × Nat × Nat) × List (Nat × Nat)),
      (l.foldl (fun (st : (Nat × Nat × Nat) × List (Nat × Nat)) i =>
        let j2len := st.2
        let c := a.getD i ' '
        let js := (List.range' 0 (0 - 0)).filter
          (fun j => ([] : List Char).getD j ' ' == c)
        js.foldl (fun (st2 : (Nat × Nat × Nat) × List (Nat × Nat)) j =>
          let k := (if j = 0 then 0 else (lookupNat j2len (j - 1)).getD 0) + 1
          let best := if k > st2.1.2.2 then (i + 1 - k, j + 1 - k, k)
            else st2.1
          (best, st2.2 ++ [(j, k)])) (st.1, [])) st).1 = st.1 := by
    intro l
    induction l with
    | nil => intro st; rfl
    | cons x xs ih => intro st; exact ih _
  have hflm : findLongestMatch a [] 0 a.length 0 0 = (0, 0, 0) := by
    unfold findLongestMatch
    exact hfold (List.range' 0 (a.length - 0)) ((0, 0, 0), [])
  unfold matchingSize
  simp only [List.length_nil]
  simp [matchingSizeAux, hflm]

/-- `ratioLE` is reflexive. -/
theorem ratioLE_refl (word x : String) : ratioLE word x x := le_refl _

/-- `ratioLE` is transitive. -/
theorem ratioLE_trans (word x y z : String) (h1 : ratioLE word x y)
    (h2 : ratioLE word y z) : ratioLE word x z := by
  unfold ratioLE at h1 h2 ⊢
  by_cases hw : word.data = []
  · rw [hw, matchingSize_nil, matchingSize_nil]
    simp
  · have hty : 0 < y.data.length + word.data.length := by
      have : word.data.length ≠ 0 := fun hc => hw (List.length_eq_zero.mp hc)
      omega
    have hstep :
        (y.data.length + word.data.length) *
          (matchingSize x.data word.data *
            (z.data.length + word.data.length)) ≤
        (y.data.length + word.data.length) *
          (matchingSize z.data word.data *
            (x.data.length + word.data.length)) := by
      calc (y.data.length + word.data.length) *
            (matchingSize x.data word.data *
              (z.data.length + word.data.length))
          = (matchingSize x.data word.data *
              (y.data.length + word.data.length)) *
              (z.data.length + word.data.length) := by ring
        _ ≤ (matchingSize y.data word.data *
              (x.data.length + word.data.length)) *
              (z.data.length + word.data.length) :=
            Nat.mul_le_mul_right _ h1
        _ = (matchingSize y.data word.data *
              (z.data.length + word.data.length)) *
              (x.data.length + word.data.length) := by ring
        _ ≤ (matchingSize z.data word.data *
              (y.data.length + word.data.length)) *
              (x.data.length + word.data.length) :=
            Nat.mul_le_mul_right _ h2
        _ = (y.data.length + word.data.length) *
            (matchingSize z.data word.data *
              (x.data.length + word.data.length)) := by ring
    exact Nat.le_of_mul_le_mul_left hstep hty

/-- Specification of the best-candidate fold of `get_close_matches`
(`heapq.nlargest(1, …)` on `(ratio, candidate)` pairs). -/
theorem foldBest_spec (word : String) :
    ∀ (scored : List (Nat × String)) (acc : Option (Nat × String))
      (r : Nat × String),
      (∀ pr ∈ scored, pr.1 = matchingSize pr.2.data word.data) →
      (∀ pr, acc = some pr → pr.1 = matchingSize pr.2.data word.data) →
      scored.foldl (fun best p =>
        match best with
        | none => some p
        | some b =>
          if p.1 * (b.2.data.length + word.data.length) >
              b.1 * (p.2.data.length + word.data.length) ∨
              (p.1 * (b.2.data.length + word.data.length) =
                b.1 * (p.2.data.length + word.data.length) ∧
                pyStrLt b.2 p.2) then some p
          else some b) acc = some r →
      (acc = some r ∨ r ∈ scored) ∧
        (∀ pr ∈ scored, ratioLE word pr.2 r.2) ∧
        (∀ pr, acc = some pr → ratioLE word pr.2 r.2) := by
  intro scored
  induction scored with
  | nil =>
    intro acc r hsc hacc h
    rw [List.foldl_nil] at h
    refine ⟨Or.inl h, by simp, ?_⟩
    intro pr hpr
    rw [hpr] at h
    injection h with h
    rw [h]
    exact ratioLE_refl _ _
  | cons p ps ih =>
    intro acc r hsc hacc h
    rw [List.foldl_cons] at h
    have hp : p.1 = matchingSize p.2.data word.data :=
      hsc p (List.mem_cons_self _ _)
    have hps : ∀ pr ∈ ps, pr.1 = matchingSize pr.2.data word.data :=
      fun pr hpr => hsc pr (List.mem_cons_of_mem _ hpr)
    cases acc with
    | none =>
      have hihs := ih (some p) r hps (by
        intro pr hpr
        injection hpr with hpr
        subst hpr
        exact hp) h
      obtain ⟨h1, h2, h3⟩ := hihs
      refine ⟨?_, ?_, by simp⟩
      · rcases h1 with h1 | h1
        · injection h1 with h1
          exact Or.inr (h1 ▸ List.mem_cons_self _ _)
        · exact Or.inr (List.mem_cons_of_mem _ h1)
      · intro pr hpr
        rcases List.mem_cons.mp hpr with hpr1 | hpr1
        · exact hpr1 ▸ h3 p rfl
        · exact h2 pr hpr1
    | some b =>
      have hb : b.1 = matchingSize b.2.data word.data := hacc b rfl
      by_cases hcond : p.1 * (b.2.data.length + word.data.length) >
          b.1 * (p.2.data.length + word.data.length) ∨
          (p.1 * (b.2.data.length + word.data.length) =
            b.1 * (p.2.data.length + word.data.length) ∧
            pyStrLt b.2 p.2 = true)
      · dsimp only at h
        rw [if_pos hcond] at h
        have hihs := ih (some p) r hps (by
          intro pr hpr
          injection hpr with hpr
          subst hpr
          exact hp) h
        obtain ⟨h1, h2, h3⟩ := hihs
        have hbp : ratioLE word b.2 p.2 := by
          unfold ratioLE
          rw [← hp, ← hb]
          rcases hcond with hc | hc
          · omega
          · omega
        have hpr2 : ratioLE word p.2 r.2 := h3 p rfl
        refine ⟨?_, ?_, ?_⟩
        · rcases h1 with h1 | h1
          · injection h1 with h1
            exact Or.inr (h1 ▸ List.mem_cons_self _ _)
          · exact Or.inr (List.mem_cons_of_mem _ h1)
        · intro pr hpr
          rcases List.mem_cons.mp hpr with hpr1 | hpr1
          · exact hpr1 ▸ hpr2
          · exact h2 pr hpr1
        · intro pr hpr
          injection hpr with hpr
          subst hpr
          exact ratioLE_trans word b.2 p.2 r.2 hbp hpr2
      · dsimp only at h
        rw [if_neg hcond] at h
        have hihs := ih (some b) r hps (by
          intro pr hpr
          injection hpr with hpr
          subst hpr
          exact hb) h
        obtain ⟨h1, h2, h3⟩ := hihs
        have hbr : ratioLE word b.2 r.2 := h3 b rfl
        have hpb : ratioLE word p.2 b.2 := by
          unfold ratioLE
          rw [← hp, ← hb]
          omega
        refine ⟨?_, ?_, ?_⟩
        · rcases h1 with h1 | h1
          · exact Or.inl h1
          · exact Or.inr (List.mem_cons_of_mem _ h1)
        · intro pr hpr
          rcases List.mem_cons.mp hpr with hpr1 | hpr1
          · exact hpr1 ▸ ratioLE_trans word p.2 b.2 r.2 hpb hbr
          · exact h2 pr hpr1
        · intro pr hpr
          injection hpr with hpr
          subst hpr
          exact hbr

/-- An entry of `dictInsert` is an old entry or the inserted pair. -/
theorem dictInsert_mem (m : List (String × String)) (k v : String) :
    ∀ pr ∈ dictInsert m k v, pr ∈ m ∨ pr = (k, v) := by
  unfold dictInsert
  split
  · intro pr hpr
    rw [List.mem_map] at hpr
    obtain ⟨e, he, heq⟩ := hpr
    split at heq
    · exact Or.inr heq.symm
    · exact Or.inl (heq ▸ he)
  · intro pr hpr
    rcases List.mem_append.mp hpr with h | h
    · exact Or.inl h
    · right; simpa using h

/-- `dictInsert` preserves existing keys. -/
theorem dictInsert_keys_mono (m : List (String × String)) (k v k' : String)
    (h : k' ∈ m.map (fun pr => pr.1)) :
    k' ∈ (dictInsert m k v).map (fun pr => pr.1) := by
  unfold dictInsert
  rw [List.mem_map] at h
  obtain ⟨e, he, heq⟩ := h
  split
  · rw [List.map_map, List.mem_map]
    refine ⟨e, he, ?_⟩
    show (fun pr => pr.1) (if e.1 == k then (k, v) else e) = k'
    by_cases hek : e.1 == k
    · rw [if_pos hek]
      rw [beq_iff_eq] at hek
      rw [← heq, ← hek]
    · rw [if_neg hek]
      exact heq
  · rw [List.map_append]
    exact List.mem_append_left _ (List.mem_map.mpr ⟨e, he, heq⟩)

/-- `dictInsert` makes its key present. -/
theorem dictInsert_key_self (m : List (String × String)) (k v : String) :
    k ∈ (dictInsert m k v).map (fun pr => pr.1) := by
  unfold dictInsert
  split
  · rename_i hany
    rw [List.any_eq_true] at hany
    obtain ⟨e, he, hek⟩ := hany
    rw [List.map_map, List.mem_map]
    refine ⟨e, he, ?_⟩
    show (fun pr => pr.1) (if e.1 == k then (k, v) else e) = k
    rw [if_pos hek]
  · rw [List.map_append]
    exact List.mem_append_right _ (by simp)

/-- Every entry of the dict pairs a station with its normalized form. -/
theorem estacaoMapa_entries (estacoes : List String) :
    ∀ pr ∈ estacaoMapa estacoes, pr.1 = pyNormalize pr.2 ∧
      pr.2 ∈ estacoes := by
  unfold estacaoMapa
  have hgen : ∀ (ests : List String) (m : List (String × String)),
      (∀ e ∈ ests, e ∈ estacoes) →
      (∀ pr ∈ m, pr.1 = pyNormalize pr.2 ∧ pr.2 ∈ estacoes) →
      ∀ pr ∈ ests.foldl (fun m est => dictInsert m (pyNormalize est) est) m,
        pr.1 = pyNormalize pr.2 ∧ pr.2 ∈ estacoes := by
    intro ests
    induction ests with
    | nil => intro m _ hm; exact hm
    | cons a as ih =>
      intro m hsub hm
      rw [List.foldl_cons]
      refine ih _ (fun e he => hsub e (List.mem_cons_of_mem _ he)) ?_
      intro pr hpr
      rcases dictInsert_mem m (pyNormalize a) a pr hpr with h | h
      · exact hm pr h
      · rw [h]
        exact ⟨rfl, hsub a (List.mem_cons_self _ _)⟩
  exact hgen estacoes [] (fun e he => he) (by simp)

/-- Every station's normalized form is a key of the dict. -/
theorem estacaoMapa_key_of_mem (estacoes : List String) (s : String)
    (hs : s ∈ estacoes) :
    pyNormalize s ∈ (estacaoMapa estacoes).map (fun pr => pr.1) := by
  unfold estacaoMapa
  have hmono : ∀ (ests : List String) (m : List (String × String))
      (k : String), k ∈ m.map (fun pr => pr.1) →
      k ∈ (ests.foldl (fun m est =>
        dictInsert m (pyNormalize est) est) m).map (fun pr => pr.1) := by
    intro ests
    induction ests with
    | nil => intro m k h; exact h
    | cons a as ih =>
      intro m k h
      rw [List.foldl_cons]
      exact ih _ k (dictInsert_keys_mono m (pyNormalize a) a k h)
  have hgen : ∀ (ests : List String) (m : List (String × String)),
      s ∈ ests →
      pyNormalize s ∈ (ests.foldl (fun m est =>
        dictInsert m (pyNormalize est) est) m).map (fun pr => pr.1) := by
    intro ests
    induction ests with
    | nil => intro m h; simp at h
    | cons a as ih =>
      intro m h
      rw [List.foldl_cons]
      rcases List.mem_cons.mp h with h | h
      · subst h
        exact hmono as _ _ (dictInsert_key_self m (pyNormalize s) s)
      · exact ih _ h
  exact hgen estacoes [] hs

/-- A present key is found by `dict.get`. -/
theorem dictGet_isSome_of_key (m : List (String × String)) (k : String)
    (h : k ∈ m.map (fun pr => pr.1)) : (dictGet m k).isSome = true := by
  unfold dictGet
  rw [List.mem_map] at h
  obtain ⟨e, he, heq⟩ := h
  rw [isSome_option_map, List.find?_isSome]
  exact ⟨e, he, by simp [heq]⟩

/-- What a successful `dict.get` on the station dict returns: a station
whose normalized form is the key. -/
theorem estacaoMapa_get (estacoes : List String) (k c : String)
    (h : dictGet (estacaoMapa estacoes) k = some c) :
    c ∈ estacoes ∧ pyNormalize c = k := by
  unfold dictGet at h
  cases hf : (estacaoMapa estacoes).find? (fun pr => pr.1 == k) with
  | none => rw [hf] at h; cases h
  | some pr =>
    rw [hf] at h
    injection h with h
    have hmem := List.mem_of_find?_eq_some hf
    have hkey := List.find?_some hf
    rw [beq_iff_eq] at hkey
    obtain ⟨h1, h2⟩ := estacaoMapa_entries estacoes pr hmem
    subst h
    exact ⟨h2, by rw [← h1, hkey]⟩

/-- A `dict.get` miss means no entry has the key. -/
theorem dictGet_none_of_no_key (m : List (String × String)) (k : String)
    (h : ∀ pr ∈ m, pr.1 ≠ k) : dictGet m k = none := by
  unfold dictGet
  rw [show m.find? (fun pr => pr.1 == k) = none from
    List.find?_eq_none.mpr (fun pr hpr => by simp [h pr hpr])]
  rfl

/-- Exact resolution: a uniquely matching canonical station is returned
by `_resolver_estacao`. -/
theorem resolverEstacao_exact (topo : Topology) (nome s : String)
    (hnome : nome ≠ "") (hs : s ∈ listAllStations topo)
    (hk : pyNormalize s = pyNormalize nome)
    (huniq : ∀ s' ∈ listAllStations topo,
      pyNormalize s' = pyNormalize nome → s' = s) :
    resolverEstacao topo nome = some s := by
  unfold resolverEstacao
  rw [if_neg hnome]
  have hsome : (dictGet (estacaoMapa (listAllStations topo))
      (pyNormalize nome)).isSome = true :=
    dictGet_isSome_of_key _ _
      (hk ▸ estacaoMapa_key_of_mem _ s hs)
  cases hget : dictGet (estacaoMapa (listAllStations topo))
      (pyNormalize nome) with
  | none => rw [hget] at hsome; cases hsome
  | some c =>
    obtain ⟨hc1, hc2⟩ := estacaoMapa_get _ _ _ hget
    have hcs : c = s := huniq c hc1 hc2
    subst hcs
    show (match dictGet (estacaoMapa (listAllStations topo))
        (pyNormalize nome) with
      | some est => some est
      | none => _) = some c
    rw [hget]

/-- No exact match and every candidate below the 0.8 cutoff: the
resolver fails. -/
theorem resolverEstacao_below_cutoff (topo : Topology) (nome : String)
    (hnome : nome ≠ "")
    (hnoex : ∀ s ∈ listAllStations topo,
      pyNormalize s ≠ pyNormalize nome)
    (hbelow : ∀ s ∈ listAllStations topo,
      ¬ ratioOK (pyNormalize nome) (pyNormalize s)) :
    resolverEstacao topo nome = none := by
  unfold resolverEstacao
  rw [if_neg hnome]
  have hget : dictGet (estacaoMapa (listAllStations topo))
      (pyNormalize nome) = none := by
    apply dictGet_none_of_no_key
    intro pr hpr
    obtain ⟨h1, h2⟩ := estacaoMapa_entries _ pr hpr
    rw [h1]
    exact hnoex pr.2 h2
  have hclose : getCloseMatches1 (pyNormalize nome)
      ((estacaoMapa (listAllStations topo)).map (fun p => p.1)) = none := by
    simp only [getCloseMatches1]
    have hempty : ((estacaoMapa (listAllStations topo)).map
        (fun p => p.1)).filterMap (fun x =>
          let m := matchingSize x.data (pyNormalize nome).data
          if 10 * m ≥ 4 * (x.data.length + (pyNormalize nome).data.length)
          then some (m, x) else none) = [] := by
      rw [List.filterMap_eq_nil_iff]
      intro k hk
      rw [List.mem_map] at hk
      obtain ⟨pr, hpr, hkey⟩ := hk
      obtain ⟨h1, h2⟩ := estacaoMapa_entries _ pr hpr
      have hnot := hbelow pr.2 h2
      rw [h1] at hkey
      rw [if_neg (by rw [← hkey]; exact hnot)]
    rw [hempty]
    rfl
  simp only [hget, hclose]

/-- Approximate resolution: a resolver success without an exact match
returns a station at or above the 0.8 cutoff with maximal similarity. -/
theorem resolverEstacao_approx (topo : Topology) (nome c : String)
    (hnome : nome ≠ "")
    (hnoex : ∀ s ∈ listAllStations topo,
      pyNormalize s ≠ pyNormalize nome)
    (h : resolverEstacao topo nome = some c) :
    c ∈ listAllStations topo ∧ ratioOK (pyNormalize nome) (pyNormalize c) ∧
      ∀ s ∈ listAllStations topo,
        ratioOK (pyNormalize nome) (pyNormalize s) →
        ratioLE (pyNormalize nome) (pyNormalize s) (pyNormalize c) := by
  unfold resolverEstacao at h
  rw [if_neg hnome] at h
  have hget : dictGet (estacaoMapa (listAllStations topo))
      (pyNormalize nome) = none := by
    apply dictGet_none_of_no_key
    intro pr hpr
    obtain ⟨h1, h2⟩ := estacaoMapa_entries _ pr hpr
    rw [h1]
    exact hnoex pr.2 h2
  simp only [hget] at h
  cases hclose : getCloseMatches1 (pyNormalize nome)
      ((estacaoMapa (listAllStations topo)).map (fun p => p.1)) with
  | none =>
    simp only [hclose] at h
    cases h
  | some chave =>
    simp only [hclose] at h
    obtain ⟨hc1, hc2⟩ := estacaoMapa_get _ _ _ h
    simp only [getCloseMatches1] at hclose
    cases hfold : (((estacaoMapa (listAllStations topo)).map
        (fun p => p.1)).filterMap (fun x =>
          let m := matchingSize x.data (pyNormalize nome).data
          if 10 * m ≥ 4 * (x.data.length + (pyNormalize nome).data.length)
          then some (m, x) else none)).foldl (fun best p =>
        match best with
        | none => some p
        | some b =>
          if p.1 * (b.2.data.length + (pyNormalize nome).data.length) >
              b.1 * (p.2.data.length + (pyNormalize nome).data.length) ∨
              (p.1 * (b.2.data.length + (pyNormalize nome).data.length) =
                b.1 * (p.2.data.length + (pyNormalize nome).data.length) ∧
                pyStrLt b.2 p.2) then some p
          else some b) none with
    | none =>
      rw [hfold] at hclose
      cases hclose
    | some r =>
      rw [hfold] at hclose
      injection hclose with hclose
      replace hclose : r.2 = chave := hclose
      have hscored : ∀ pr ∈ (((estacaoMapa (listAllStations topo)).map
          (fun p => p.1)).filterMap (fun x =>
            let m := matchingSize x.data (pyNormalize nome).data
            if 10 * m ≥ 4 * (x.data.length + (pyNormalize nome).data.length)
            then some (m, x) else none)),
          pr.1 = matchingSize pr.2.data (pyNormalize nome).data ∧
            ratioOK (pyNormalize nome) pr.2 := by
        intro pr hpr
        rw [List.mem_filterMap] at hpr
        obtain ⟨x, -, hfx⟩ := hpr
        by_cases hcut : 10 * matchingSize x.data (pyNormalize nome).data ≥
            4 * (x.data.length + (pyNormalize nome).data.length)
        · rw [if_pos hcut] at hfx
          injection hfx with hfx
          subst hfx
          exact ⟨rfl, hcut⟩
        · rw [if_neg hcut] at hfx
          cases hfx
      obtain ⟨hr1, hr2, -⟩ := foldBest_spec (pyNormalize nome) _ none r
        (fun pr hpr => (hscored pr hpr).1) (by intro pr hpr; cases hpr) hfold
      have hrmem : r ∈ (((estacaoMapa (listAllStations topo)).map
          (fun p => p.1)).filterMap (fun x =>
            let m := matchingSize x.data (pyNormalize nome).data
            if 10 * m ≥ 4 * (x.data.length + (pyNormalize nome).data.length)
            then some (m, x) else none)) := by
        rcases hr1 with h1 | h1
        · cases h1
        · exact h1
      have hrOK : ratioOK (pyNormalize nome) r.2 := (hscored r hrmem).2
      refine ⟨hc1, by rw [hc2, ← hclose]; exact hrOK, ?_⟩
      intro s hs hsOK
      have hkey : pyNormalize s ∈ ((estacaoMapa (listAllStations topo)).map
          (fun p => p.1)) := estacaoMapa_key_of_mem _ s hs
      have hsc : (matchingSize (pyNormalize s).data (pyNormalize nome).data,
          pyNormalize s) ∈ (((estacaoMapa (listAllStations topo)).map
          (fun p => p.1)).filterMap (fun x =>
            let m := matchingSize x.data (pyNormalize nome).data
            if 10 * m ≥ 4 * (x.data.length + (pyNormalize nome).data.length)
            then some (m, x) else none)) := by
        rw [List.mem_filterMap]
        refine ⟨pyNormalize s, hkey, ?_⟩
        have hsOK2 : 10 * matchingSize (pyNormalize s).data
            (pyNormalize nome).data ≥
            4 * ((pyNormalize s).data.length +
              (pyNormalize nome).data.length) := hsOK
        show (if 10 * matchingSize (pyNormalize s).data
              (pyNormalize nome).data ≥
            4 * ((pyNormalize s).data.length + (pyNormalize nome).data.length)
          then some (matchingSize (pyNormalize s).data
            (pyNormalize nome).data, pyNormalize s) else none) = _
        rw [if_pos hsOK2]
      have := hr2 _ hsc
      rw [hc2, ← hclose]
      exact this

/-- Unfolding `plan_route` once both stations resolve. -/
theorem plan_route_eq (topo : Topology) (status : List (String × String))
    (origem destino o d : String)
    (ho : resolverEstacao topo origem = some o)
    (hd : resolverEstacao topo destino = some d) :
    plan_route topo status origem destino =
      match modePlans (buildGraph topo) status o d with
      | .error e => .error e
      | .ok [] => .error RouteErr.noRouteFound
      | .ok (p :: ps) => .ok (pyMin p ps) := by
  unfold plan_route
  rw [ho, hd]

/-- An unresolvable origin makes `plan_route` raise its first
`ValueError` (`StationNotFound`). -/
theorem plan_route_stationNotFound (topo : Topology)
    (status : List (String × String)) (origem destino : String)
    (h : resolverEstacao topo origem = none) :
    plan_route topo status origem destino =
      .error RouteErr.stationNotFound := by
  cases hd : resolverEstacao topo destino with
  | none => simp only [plan_route, h, hd]
  | some d => simp only [plan_route, h, hd]

/-! ## The zero-hop behaviour of the searches -/

/-- `dijkstra_path(x, x)` short-circuits to the single-node path. -/
theorem dijkstra_self (g : Graph) (w : String → String → Nat) (x : String)
    (hx : x ∈ g.nodes) : dijkstra g w x x = .ok (some [x]) := by
  unfold dijkstra
  rw [if_pos hx, if_pos rfl]

/-- `astar_path(x, x)` pops the start entry, which is already the
target, before evaluating any heuristic. -/
theorem astar_self (g : Graph) (w : String → String → Nat)
    (h : String → Option Nat) (x : String) (hx : x ∈ g.nodes) :
    astar g w h x x = .ok (some [x]) := by
  unfold astar
  rw [if_pos ⟨hx, hx⟩]
  show Except.ok (astarLoop g w h x (degSum g [] + 1 + 1)
    [⟨0, x, 0, [x]⟩] [] []) = _
  simp [astarLoop, popMinBy]

/-- Every profile returns the zero-hop plan on a same-station query. -/
theorem tryModo_self (g : Graph) (status : List (String × String))
    (x modo : String) (hx : x ∈ g.nodes) :
    tryModo g status x x modo = .ok (some ⟨x, x, modo, [x], 0, []⟩) := by
  simp only [tryModo]
  by_cases hm : modo = "simples"
  · rw [if_pos hm, dijkstra_self g _ x hx]
    rfl
  · rw [if_neg hm, astar_self g _ _ x hx]
    rfl

/-- The profile loop on a same-station query: three zero-cost plans in
priority order. -/
theorem modePlans_self (g : Graph) (status : List (String × String))
    (x : String) (hx : x ∈ g.nodes) :
    modePlans g status x x =
      .ok [⟨x, x, "rapido", [x], 0, []⟩, ⟨x, x, "simples", [x], 0, []⟩,
        ⟨x, x, "acessivel", [x], 0, []⟩] := by
  unfold modePlans
  rw [tryModo_self g status x "rapido" hx, tryModo_self g status x "simples" hx,
    tryModo_self g status x "acessivel" hx]
  rfl

/-! ## The claims -/

/-- C1: on the topology with line `L1 = [A, B, C]` and line
`L2 = [C, D, E]`, `plan_route("A", "E")` returns the plan whose path is
exactly `[A, B, C, D, E]` and whose transfers list is exactly the single
entry `(C, L1, L2)`: one transfer at station `C` from `L1` to `L2`. -/
theorem C1_scenario1 :
    plan_route topoScenario [] "A" "E" =
      .ok ⟨"A", "E", "rapido", ["A", "B", "C", "D", "E"], 12,
        [("C", "L1", "L2")]⟩ := rfl

/-- C2 counterexample: station `X` of the one-station line resolves to a
canonical station of the loaded topology, yet `plan_route` fails with
the uncaught `networkx.NodeNotFound` exception — not with one of the two
recoverable errors — because `X` has no incident edge and therefore is
not a node of the built graph. -/
theorem C2_counterexample :
    resolverEstacao topoIsolated "X" = some "X" ∧
    resolverEstacao topoIsolated "A" = some "A" ∧
    plan_route topoIsolated [] "X" "A" = .error RouteErr.nodeNotFound ∧
    RouteErr.nodeNotFound ≠ RouteErr.noRouteFound ∧
    RouteErr.nodeNotFound ≠ RouteErr.stationNotFound :=
  ⟨rfl, rfl, rfl, by decide, by decide⟩

/-- C2 (amended): when both raw strings resolve to stations that are
nodes of the built graph, `plan_route` either returns a `RoutePlan` or
fails with the recoverable `NoRouteFound`, and never with any other
error; a resolved station *absent from the graph* (such as the only
station of a one-station line) instead escapes with `NodeNotFound`. -/
theorem C2_amended (topo : Topology) (status : List (String × String))
    (origem destino o d : String)
    (ho : resolverEstacao topo origem = some o)
    (hd : resolverEstacao topo destino = some d)
    (hog : o ∈ (buildGraph topo).nodes) (hdg : d ∈ (buildGraph topo).nodes) :
    (∃ plan, plan_route topo status origem destino = .ok plan) ∨
      plan_route topo status origem destino =
        .error RouteErr.noRouteFound := by
  rw [plan_route_eq topo status origem destino o d ho hd]
  obtain ⟨l, hl⟩ := modePlans_ok (buildGraph topo) status o d hog hdg
  rw [hl]
  cases l with
  | nil => exact Or.inr rfl
  | cons p ps => exact Or.inl ⟨pyMin p ps, rfl⟩

/-- C2 witness: the amended statement applied to the scenario topology. -/
theorem C2_amended_witness :
    (∃ plan, plan_route topoScenario [] "A" "E" = .ok plan) ∨
      plan_route topoScenario [] "A" "E" =
        .error RouteErr.noRouteFound :=
  C2_amended topoScenario [] "A" "E" "A" "E" rfl rfl (by decide) (by decide)

/-- C3 counterexample: with the live situation of line `L1` set to the
English keyword `"reduced"` — which the claim lists as a degradation
keyword — the cost of edge `(A, B)` stays at the bare `TEMPO_BASE`,
without the claimed +10: the code only matches the Portuguese stems. -/
theorem C3_counterexample :
    dictGet (fetchStatus (some [FetchItem.ok "L1" "reduced"]))
      (pyNormalize "L1") = some "reduced" ∧
    containsSub (pyLower "reduced") "reduced" = true ∧
    calcularPeso (buildGraph topoScenario)
      (fetchStatus (some [FetchItem.ok "L1" "reduced"])) "A" "B" "rapido" =
      TEMPO_BASE :=
  ⟨rfl, rfl, rfl⟩

/-- C3 (amended): every edge cost under any profile is the empty-status
cost plus exactly +10 when the lowered live situation of the edge's line
contains one of the Portuguese stems `"reduzida"`, `"falha"`,
`"interrup"` as a substring (`situacaoDegradada`), and +0 otherwise; on
the scenario topology with `L1` degraded (`"reduzida"`),
`plan_route("A", "C")` costs the no-disruption baseline 6 plus 10 per
degraded edge. -/
theorem C3_amended :
    (∀ (g : Graph) (status : List (String × String)) (u v modo : String),
      calcularPeso g status u v modo =
        calcularPeso g [] u v modo +
          (if situacaoDegradada status
              (((getEdgeData g u v).map (fun d => d.linha)).getD "")
            then 10 else 0)) ∧
    plan_route topoScenario
      (fetchStatus (some [FetchItem.ok "L1" "reduzida"])) "A" "C" =
      .ok ⟨"A", "C", "rapido", ["A", "B", "C"], 6 + 2 * 10, []⟩ :=
  ⟨fun g status u v modo => calcularPeso_status_split g status u v modo,
    rfl⟩

/-- C4 counterexample: the edge `{B, C}` of the scenario topology is
incident on the transfer station `C`, yet under the `simples` profile
its cost carries the +3 only when evaluated from `C` — evaluated from
`B` it stays at the base cost, so the penalty is not independent of the
direction of evaluation as the claim requires. -/
theorem C4_counterexample :
    transferAt (buildGraph topoScenario) "C" = true ∧
    (getEdgeData (buildGraph topoScenario) "B" "C").isSome = true ∧
    calcularPeso (buildGraph topoScenario) [] "B" "C" "simples" =
      TEMPO_BASE ∧
    calcularPeso (buildGraph topoScenario) [] "C" "B" "simples" =
      TEMPO_BASE + 3 :=
  ⟨rfl, rfl, rfl, rfl⟩

/-- C4 (amended): under the `simples` profile the cost of every edge
equals its disruption-adjusted base cost (the `rapido` cost) plus a
fixed +3 exactly when the *first* endpoint — the node the edge is
evaluated from — carries the `baldeacoes` (transfer) attribute. -/
theorem C4_amended (g : Graph) (status : List (String × String))
    (u v : String) :
    calcularPeso g status u v "simples" =
      calcularPeso g status u v "rapido" +
        (if transferAt g u then 3 else 0) :=
  calcularPeso_simples_split g status u v

/-- C10 counterexample: the consecutive pair `(A, B)` occurs in both
lines `L1` and `L2`, but the single edge of the built graph carries only
the tag of the last-processed line `L2`, not each such line's tag. -/
theorem C10_counterexample :
    linesWithPair topoDupPair "A" "B" =
      [⟨"L1", "Op1", ["A", "B"]⟩, ⟨"L2", "Op2", ["A", "B"]⟩] ∧
    getEdgeData (buildGraph topoDupPair) "A" "B" =
      some ⟨TEMPO_BASE, "L2", "Op2"⟩ ∧
    ("L1" : String) ≠ "L2" :=
  ⟨rfl, rfl, by decide⟩

/-- C10 (amended): for every line and every pair of consecutive stations
of its sequence, the built graph has an edge between the pair carrying
`base_travel_time = TEMPO_BASE = 3`, tagged with the name and operator
of the *last* line (in topology order) containing that consecutive pair
— later lines overwrite the shared edge's attributes. -/
theorem C10_amended (topo : Topology) (l₀ : Linha) (hl₀ : l₀ ∈ topo) :
    ∀ pr ∈ consecPairs l₀.estacoes,
      ∃ l, (linesWithPair topo pr.1 pr.2).getLast? = some l ∧
        getEdgeData (buildGraph topo) pr.1 pr.2 =
          some ⟨TEMPO_BASE, l.nome, l.operadora⟩ := by
  intro pr hpr
  have hmem : l₀ ∈ linesWithPair topo pr.1 pr.2 := by
    unfold linesWithPair
    rw [List.mem_filter]
    refine ⟨hl₀, ?_⟩
    unfold linhaTemPar
    rw [List.any_eq_true]
    exact ⟨pr, hpr, by simp [pairEq]⟩
  have hne : linesWithPair topo pr.1 pr.2 ≠ [] := by
    intro hc
    rw [hc] at hmem
    simp at hmem
  cases hlast : (linesWithPair topo pr.1 pr.2).getLast? with
  | none => exact absurd (List.getLast?_eq_none_iff.mp hlast) hne
  | some l =>
    refine ⟨l, rfl, ?_⟩
    rw [getEdgeData_buildGraph]
    unfold buildGraphEdges
    rw [getEdgeData_foldTopo topo ⟨[], [], []⟩ pr.1 pr.2, hlast]

/-- C10 witness: the amended statement applied to the duplicate-pair
topology, where the last line containing `(A, B)` is `L2`. -/
theorem C10_amended_witness :
    ∃ l, (linesWithPair topoDupPair "A" "B").getLast? = some l ∧
      getEdgeData (buildGraph topoDupPair) "A" "B" =
        some ⟨TEMPO_BASE, l.nome, l.operadora⟩ :=
  C10_amended topoDupPair ⟨"L1", "Op1", ["A", "B"]⟩ (by decide) ("A", "B")
    (by decide)

/-- C5: every `RoutePlan` returned by `plan_route` satisfies the route
plan invariant: its path is a valid walk of the station graph
(consecutive stations joined by an edge); its transfers list is exactly
the change points of the line attribute along the path, at strictly
increasing segment indices, each with `from_line ≠ to_line`; and its
estimated cost is at least the number of edges traversed. -/
theorem C5_invariants (topo : Topology) (status : List (String × String))
    (origem destino : String) (plan : RoutePlan)
    (h : plan_route topo status origem destino = .ok plan) :
    isWalk (buildGraph topo) plan.caminho = true ∧
    plan.baldeacoes =
      (lineChanges (pathLines (buildGraph topo) plan.caminho)).map
        (fun idx => (plan.caminho.getD idx "",
          (pathLines (buildGraph topo) plan.caminho).getD (idx - 1) "",
          (pathLines (buildGraph topo) plan.caminho).getD idx "")) ∧
    List.Pairwise (· < ·)
      (lineChanges (pathLines (buildGraph topo) plan.caminho)) ∧
    (∀ t ∈ plan.baldeacoes, t.2.1 ≠ t.2.2) ∧
    plan.caminho.length - 1 ≤ plan.custo_estimado := by
  cases hro : resolverEstacao topo origem with
  | none =>
    rw [plan_route_stationNotFound topo status origem destino hro] at h
    cases h
  | some o =>
    cases hrd : resolverEstacao topo destino with
    | none =>
      cases hro2 : resolverEstacao topo origem with
      | none => rw [hro2] at hro; cases hro
      | some o2 =>
        simp only [plan_route, hro2, hrd] at h
        cases h
    | some d =>
      rw [plan_route_eq topo status origem destino o d hro hrd] at h
      cases hmp : modePlans (buildGraph topo) status o d with
      | error e => rw [hmp] at h; cases h
      | ok l =>
        rw [hmp] at h
        cases l with
        | nil => cases h
        | cons p ps =>
          injection h with h
          have hplan : plan ∈ p :: ps := h ▸ pyMin_mem p ps
          obtain ⟨modo, -, htm⟩ :=
            modePlans_mem (buildGraph topo) status o d (p :: ps) hmp plan
              hplan
          obtain ⟨-, -, -, hcusto, hbald, hwalk, -, -⟩ :=
            tryModo_shape (buildGraph topo) status o d modo plan htm
          obtain ⟨hnd, hends, htempo⟩ := graphWf_buildGraph topo
          refine ⟨hwalk, ?_, lineChanges_pairwise _, ?_, ?_⟩
          · rw [hbald]
            rfl
          · rw [hbald]
            exact detectarBaldeacoes_ne (buildGraph topo) plan.caminho
          · rw [hcusto]
            exact custoTotal_ge (buildGraph topo) htempo status plan.caminho
              modo

/-- C5 witness: the invariant instantiated on the scenario plan. -/
theorem C5_invariants_witness :
    isWalk (buildGraph topoScenario)
      (RoutePlan.caminho ⟨"A", "E", "rapido", ["A", "B", "C", "D", "E"], 12,
        [("C", "L1", "L2")]⟩) = true ∧
    (∀ t ∈ RoutePlan.baldeacoes
        (⟨"A", "E", "rapido", ["A", "B", "C", "D", "E"], 12,
          [("C", "L1", "L2")]⟩ : RoutePlan), t.2.1 ≠ t.2.2) ∧
    (RoutePlan.caminho (⟨"A", "E", "rapido", ["A", "B", "C", "D", "E"], 12,
        [("C", "L1", "L2")]⟩ : RoutePlan)).length - 1 ≤ 12 := by
  have h := C5_invariants topoScenario [] "A" "E"
    ⟨"A", "E", "rapido", ["A", "B", "C", "D", "E"], 12, [("C", "L1", "L2")]⟩
    rfl
  exact ⟨h.1, h.2.2.2.1, h.2.2.2.2⟩

/-- C6 counterexample: a feed whose first record parses to a degraded
situation (`L1`, `"reduzida"`) and whose second record raises in the
loop body (e.g. `"situacao": null`) is a parsing error after which
`_fetch_status` returns the *partially built* map — the degraded entry
is kept, and the edge costs of `L1` carry the +10 penalty, so the
claimed "on any parsing error every disruption penalty is 0" fails. -/
theorem C6_counterexample :
    fetchStatus (some [FetchItem.ok "L1" "reduzida", FetchItem.bad]) =
      [("l1", "reduzida")] ∧
    situacaoDegradada
      (fetchStatus (some [FetchItem.ok "L1" "reduzida", FetchItem.bad]))
      "L1" = true ∧
    calcularPeso (buildGraph topoScenario)
      (fetchStatus (some [FetchItem.ok "L1" "reduzida", FetchItem.bad]))
      "A" "B" "rapido" = TEMPO_BASE + 10 :=
  ⟨rfl, rfl, rfl⟩

/-- C6 (amended): the live-status refresh never fails — a request, HTTP
or decode error before any record is parsed returns the empty map, under
which no line is degraded (every disruption penalty is 0), while a
mid-iteration parsing error keeps the records already parsed (whose
penalties remain); under *any* status map the refresh produced,
`plan_route` still returns a successful plan for every connected
resolved pair, and no fetch failure is ever surfaced to its caller. -/
theorem C6_amended (topo : Topology) (status : List (String × String))
    (origem destino o d : String)
    (ho : resolverEstacao topo origem = some o)
    (hd : resolverEstacao topo destino = some d)
    (hog : o ∈ (buildGraph topo).nodes) (hdg : d ∈ (buildGraph topo).nodes)
    (hconn : Connected (buildGraph topo) o d) :
    fetchStatus none = [] ∧
    (∀ linha, situacaoDegradada (fetchStatus none) linha = false) ∧
    (∃ plan, plan_route topo status origem destino = .ok plan) := by
  refine ⟨rfl, fun linha => rfl, ?_⟩
  obtain ⟨hnd, hends, -⟩ := graphWf_buildGraph topo
  rw [plan_route_eq topo status origem destino o d ho hd]
  obtain ⟨plan2, hplan2⟩ := tryModo_simples_some (buildGraph topo)
    status o d hnd hends hog hconn
  obtain ⟨l, hl⟩ := modePlans_ok (buildGraph topo) status o d hog hdg
  have hmem := modePlans_contains_simples (buildGraph topo)
    status o d l plan2 hl hplan2
  rw [hl]
  cases l with
  | nil => simp at hmem
  | cons p ps => exact ⟨pyMin p ps, rfl⟩

/-- C6 witness: on the scenario topology, `plan_route` still succeeds
under the partial map left by a mid-iteration parsing failure. -/
theorem C6_amended_witness :
    fetchStatus none = [] ∧
    (∀ linha, situacaoDegradada (fetchStatus none) linha = false) ∧
    (∃ plan, plan_route topoScenario
      (fetchStatus (some [FetchItem.ok "L1" "reduzida", FetchItem.bad]))
      "A" "E" = .ok plan) :=
  C6_amended topoScenario
    (fetchStatus (some [FetchItem.ok "L1" "reduzida", FetchItem.bad]))
    "A" "E" "A" "E" rfl rfl (by decide) (by decide)
    ⟨["A", "B", "C", "D", "E"], by decide, rfl, rfl⟩

/-- C7: the returned plan is a minimum-cost member of the per-profile
plan list, which is assembled in the fixed priority order
`rapido, simples, acessivel` (witnessed by the sublist of profile
names), and it is the *first* minimum: every plan of a higher-priority
profile has strictly larger cost, so ties break by profile priority,
deterministically. -/
theorem C7_arbitration (topo : Topology) (status : List (String × String))
    (origem destino : String) (plan : RoutePlan)
    (h : plan_route topo status origem destino = .ok plan) :
    ∃ o d l, resolverEstacao topo origem = some o ∧
      resolverEstacao topo destino = some d ∧
      modePlans (buildGraph topo) status o d = .ok l ∧
      plan ∈ l ∧
      (∀ q ∈ l, plan.custo_estimado ≤ q.custo_estimado) ∧
      (∃ l₁ l₂, l = l₁ ++ plan :: l₂ ∧
        ∀ q ∈ l₁, plan.custo_estimado < q.custo_estimado) ∧
      List.Sublist (l.map (fun p => p.modo))
        ["rapido", "simples", "acessivel"] := by
  cases hro : resolverEstacao topo origem with
  | none =>
    rw [plan_route_stationNotFound topo status origem destino hro] at h
    cases h
  | some o =>
    cases hrd : resolverEstacao topo destino with
    | none =>
      cases hro2 : resolverEstacao topo origem with
      | none => rw [hro2] at hro; cases hro
      | some o2 =>
        simp only [plan_route, hro2, hrd] at h
        cases h
    | some d =>
      rw [plan_route_eq topo status origem destino o d hro hrd] at h
      cases hmp : modePlans (buildGraph topo) status o d with
      | error e => rw [hmp] at h; cases h
      | ok l =>
        rw [hmp] at h
        cases l with
        | nil => cases h
        | cons p ps =>
          injection h with h
          subst h
          refine ⟨o, d, p :: ps, rfl, rfl, hmp, pyMin_mem p ps,
            pyMin_le p ps, ?_, modePlans_modos _ _ _ _ _ hmp⟩
          obtain ⟨l₁, l₂, heq, hlt⟩ := pyMin_first p ps
          exact ⟨l₁, l₂, heq, hlt⟩

/-- C7 witness: arbitration facts instantiated on the scenario plan. -/
theorem C7_arbitration_witness :
    ∃ o d l, resolverEstacao topoScenario "A" = some o ∧
      resolverEstacao topoScenario "E" = some d ∧
      modePlans (buildGraph topoScenario) [] o d = .ok l ∧
      (⟨"A", "E", "rapido", ["A", "B", "C", "D", "E"], 12,
        [("C", "L1", "L2")]⟩ : RoutePlan) ∈ l ∧
      (∀ q ∈ l, (⟨"A", "E", "rapido", ["A", "B", "C", "D", "E"], 12,
        [("C", "L1", "L2")]⟩ : RoutePlan).custo_estimado ≤
          q.custo_estimado) ∧
      (∃ l₁ l₂, l = l₁ ++ (⟨"A", "E", "rapido", ["A", "B", "C", "D", "E"],
          12, [("C", "L1", "L2")]⟩ : RoutePlan) :: l₂ ∧
        ∀ q ∈ l₁, (⟨"A", "E", "rapido", ["A", "B", "C", "D", "E"], 12,
          [("C", "L1", "L2")]⟩ : RoutePlan).custo_estimado <
            q.custo_estimado) ∧
      List.Sublist (l.map (fun p => p.modo))
        ["rapido", "simples", "acessivel"] :=
  C7_arbitration topoScenario [] "A" "E"
    ⟨"A", "E", "rapido", ["A", "B", "C", "D", "E"], 12, [("C", "L1", "L2")]⟩
    rfl

/-- C8 counterexample: `AA` is a canonical station present in the graph,
but its normalized form collides with station `Aa` of a one-station
line; the resolver maps `AA` to `Aa`, which is not a graph node, so
`plan_route("AA", "AA")` does not return the zero-hop plan `[AA]` — it
fails, with the uncaught `NodeNotFound`. -/
theorem C8_counterexample :
    "AA" ∈ (buildGraph topoCollide).nodes ∧
    resolverEstacao topoCollide "AA" = some "Aa" ∧
    plan_route topoCollide [] "AA" "AA" = .error RouteErr.nodeNotFound :=
  ⟨by decide, rfl, rfl⟩

/-- C8 (amended): for every canonical station `x` present in the graph
*that the resolver maps to itself* (which holds whenever no other
station shares its normalized form), `plan_route(x, x)` returns the
zero-hop plan with path `[x]`, estimated cost 0 and no transfers, and in
particular does not fail with `NoRouteFound`. -/
theorem C8_amended (topo : Topology) (status : List (String × String))
    (x : String) (hres : resolverEstacao topo x = some x)
    (hx : x ∈ (buildGraph topo).nodes) :
    plan_route topo status x x =
      .ok ⟨x, x, "rapido", [x], 0, []⟩ := by
  rw [plan_route_eq topo status x x x x hres hres,
    modePlans_self (buildGraph topo) status x hx]
  rfl

/-- C8 witness: the zero-hop plan at station `A` of the scenario
topology. -/
theorem C8_amended_witness :
    plan_route topoScenario [] "A" "A" =
      .ok ⟨"A", "A", "rapido", ["A"], 0, []⟩ :=
  C8_amended topoScenario [] "A" rfl (by decide)

/-- C9: for every nonempty raw input, (i) when its normalized form
equals the normalized form of a unique canonical station, the resolver
returns that station (exact match always beats approximate matching);
(ii) with no exact match and every candidate's similarity below the
fixed 0.8 cutoff, the resolver fails and `plan_route` raises
`StationNotFound`; (iii) with no exact match, a resolver success is a
single best approximate candidate: at or above the 0.8 cutoff and of
maximal similarity among all stations meeting the cutoff. -/
theorem C9_resolver (topo : Topology) (nome : String) (hnome : nome ≠ "") :
    (∀ s, s ∈ listAllStations topo → pyNormalize s = pyNormalize nome →
      (∀ s' ∈ listAllStations topo,
        pyNormalize s' = pyNormalize nome → s' = s) →
      resolverEstacao topo nome = some s) ∧
    ((∀ s ∈ listAllStations topo, pyNormalize s ≠ pyNormalize nome) →
      (∀ s ∈ listAllStations topo,
        ¬ ratioOK (pyNormalize nome) (pyNormalize s)) →
      resolverEstacao topo nome = none ∧
      ∀ (destino : String) (status : List (String × String)),
        plan_route topo status nome destino =
          .error RouteErr.stationNotFound) ∧
    ((∀ s ∈ listAllStations topo, pyNormalize s ≠ pyNormalize nome) →
      ∀ c, resolverEstacao topo nome = some c →
        c ∈ listAllStations topo ∧
        ratioOK (pyNormalize nome) (pyNormalize c) ∧
        ∀ s ∈ listAllStations topo,
          ratioOK (pyNormalize nome) (pyNormalize s) →
          ratioLE (pyNormalize nome) (pyNormalize s) (pyNormalize c)) := by
  refine ⟨?_, ?_, ?_⟩
  · intro s hs hk huniq
    exact resolverEstacao_exact topo nome s hnome hs hk huniq
  · intro hnoex hbelow
    have hnone :=
      resolverEstacao_below_cutoff topo nome hnome hnoex hbelow
    exact ⟨hnone, fun destino status =>
      plan_route_stationNotFound topo status nome destino hnone⟩
  · intro hnoex c hc
    exact resolverEstacao_approx topo nome c hnome hnoex hc

/-- C9 witness: an exact (case-insensitive) hit and a below-cutoff
miss on the scenario topology. -/
theorem C9_resolver_witness :
    resolverEstacao topoScenario "a" = some "A" ∧
    resolverEstacao topoScenario "zzz" = none :=
  ⟨(C9_resolver topoScenario "a" (by decide)).1 "A" (by decide) (by decide)
      (by decide),
    ((C9_resolver topoScenario "zzz" (by decide)).2.1 (by decide)
      (by decide)).1⟩

end Ceci
